import Mathlib

/-!
Verification development for the streak analytics engine of the habit
tracker (`src/habit_tracker/analytics/analytics.py`), together with the
calendar primitives of Python's `datetime` module that the engine calls
(`date.isocalendar`, `date.fromisocalendar`, day arithmetic).

A calendar date is represented by its proleptic Gregorian ordinal (an
integer; day 1 is January 1 of year 1), exactly the representation CPython
uses internally; `timedelta(days = k)` becomes addition of `k`.
-/

namespace HabitTracker

/-- Ordinal (proleptic Gregorian day number, 1 = January 1 of year 1) of
January 1 of year `y`; mirrors CPython `_days_before_year(y) + 1`. -/
def jan1Ordinal (y : Int) : Int :=
  365 * (y - 1) + (y - 1) / 4 - (y - 1) / 100 + (y - 1) / 400 + 1

/-- Gregorian year containing ordinal `o`; mirrors the year computation of
CPython `_ord2ymd` (divmod chain through the 400/100/4/1-year cycles with
the end-of-cycle corrections `n1 == 4 or n100 == 4`). -/
def yearOfOrdinal (o : Int) : Int :=
  let n := o - 1
  let n400 := n / 146097
  let r400 := n % 146097
  let n100 := r400 / 36524
  let r100 := r400 % 36524
  let n4 := r100 / 1461
  let r4 := r100 % 1461
  let n1 := r4 / 365
  let year := 400 * n400 + 100 * n100 + 4 * n4 + n1 + 1
  if n1 = 4 ∨ n100 = 4 then year - 1 else year

/-- Ordinal of the Monday starting ISO week 1 of ISO year `y`; mirrors
CPython `_isoweek1monday`. -/
def isoWeek1Monday (y : Int) : Int :=
  let firstday := jan1Ordinal y
  let firstweekday := (firstday + 6) % 7
  let week1monday := firstday - firstweekday
  if 3 < firstweekday then week1monday + 7 else week1monday

/-- ISO calendar `(year, week)` of the date with ordinal `o`; mirrors
CPython `date.isocalendar` (the weekday component, unused by the engine,
is dropped).  This is `_iso_week_key` in `analytics.py`. -/
def isocalendarYW (o : Int) : Int × Int :=
  let year := yearOfOrdinal o
  if o < isoWeek1Monday year then
    (year - 1, (o - isoWeek1Monday (year - 1)) / 7 + 1)
  else
    let week := (o - isoWeek1Monday year) / 7
    if 52 ≤ week ∧ isoWeek1Monday (year + 1) ≤ o then (year + 1, 1)
    else (year, week + 1)

/-- Ordinal of the Monday of ISO week `(y, w)`; mirrors
`date.fromisocalendar(y, w, 1)`.  The range check CPython performs on its
arguments is omitted: the program applies this only to keys produced by
`isocalendar` (directly or through `_prev_iso_week`), which are in range. -/
def fromIsoMonday (y w : Int) : Int := isoWeek1Monday y + (w - 1) * 7

/-- Previous ISO week key; mirrors `_prev_iso_week` in `analytics.py`:
take the Monday of the given ISO week, subtract seven days, re-key. -/
def prevIsoWeek (yw : Int × Int) : Int × Int :=
  isocalendarYW (fromIsoMonday yw.1 yw.2 - 7)

/-- A completion timestamp (`datetime.datetime`): only its calendar date
matters to the engine; the time of day is carried but discarded by
`.date()`. -/
structure Timestamp where
  day : Int
  secondsOfDay : Nat
deriving DecidableEq, Repr

/-- Python `datetime.date()`: truncate a timestamp to its calendar date. -/
def Timestamp.date (t : Timestamp) : Int := t.day

/-- Python `str.lower()` as the engine uses it (on periodicity strings
such as "daily"/"Weekly"/"monthly"): lowercase every character.  Mapping
over the character list is kernel-reducible, unlike `String.toLower`. -/
def strLower (s : String) : String := ⟨s.data.map Char.toLower⟩

/-- The `Habit` domain entity (`models/habit.py`), restricted to the
fields the analytics module reads or that the constructor stores. -/
structure Habit where
  habit_id : Int
  name : String
  periodicity : String
  created_date : Timestamp
  description : Option String
  completion_dates : List Timestamp
deriving Repr

/-- Insert an integer into a strictly ascending list, keeping it strictly
ascending (duplicates are dropped). -/
def insertDay (x : Int) : List Int → List Int
  | [] => [x]
  | y :: ys =>
    if x < y then x :: y :: ys
    else if x = y then y :: ys
    else y :: insertDay x ys

/-- Python sorted-set over calendar dates: the ascending list of the
distinct values of `l`. -/
def uniqueSortedDays (l : List Int) : List Int := l.foldr insertDay []

/-- Python tuple comparison on `(isoYear, isoWeek)` pairs:
lexicographic order. -/
def pairLt (a b : Int × Int) : Prop := a.1 < b.1 ∨ (a.1 = b.1 ∧ a.2 < b.2)

instance (a b : Int × Int) : Decidable (pairLt a b) := by
  unfold pairLt; infer_instance

/-- Insert an ISO week key into a strictly ascending (lexicographic) list,
keeping it strictly ascending (duplicates are dropped). -/
def insertPair (x : Int × Int) : List (Int × Int) → List (Int × Int)
  | [] => [x]
  | y :: ys =>
    if pairLt x y then x :: y :: ys
    else if x = y then y :: ys
    else y :: insertPair x ys

/-- Python sorted-set over ISO week keys: the lexicographically ascending
list of the distinct values of `l`. -/
def uniqueSortedPairs (l : List (Int × Int)) : List (Int × Int) :=
  l.foldr insertPair []

/-- The scanning loop shared by `_longest_daily_streak` and
`_longest_weekly_streak`: walk the adjacent pairs of the list, extending
the running count when `consec prev curr` holds, resetting it to 1
otherwise, and tracking the maximum count seen. -/
def longestRunAux (consec : α → α → Bool) : α → List α → Nat → Nat → Nat
  | _, [], _, longest => longest
  | prev, curr :: rest, current, longest =>
    if consec prev curr then
      longestRunAux consec curr rest (current + 1) (max longest (current + 1))
    else
      longestRunAux consec curr rest 1 longest

/-- Result of the scan on a whole list: `longest = 1` and `current = 1`
before the loop over `zip(dates, dates[1:])`; an empty list gives 0. -/
def longestRun (consec : α → α → Bool) : List α → Nat
  | [] => 0
  | d :: rest => longestRunAux consec d rest 1 1

/-- Adjacency test of `_longest_daily_streak`:
`curr == prev + timedelta(days=1)`. -/
def dayConsec (prev curr : Int) : Bool := curr = prev + 1

/-- Adjacency test of `_longest_weekly_streak`: same ISO year with week
incremented, or year rollover from week 52/53 to week 1. -/
def weekConsec (a b : Int × Int) : Bool :=
  (b.1 = a.1 && b.2 = a.2 + 1) ||
    (b.1 = a.1 + 1 && (a.2 = 52 || a.2 = 53) && b.2 = 1)

/-- Function `_longest_daily_streak` from `analytics.py` (argument: the sorted list
of unique completion dates). -/
def longest_daily_streak (dates : List Int) : Nat :=
  if dates.isEmpty then 0 else longestRun dayConsec dates

/-- Function `_longest_weekly_streak` from `analytics.py`: re-key the dates to
unique sorted `(isoYear, isoWeek)` pairs, then scan. -/
def longest_weekly_streak (dates : List Int) : Nat :=
  if dates.isEmpty then 0
  else longestRun weekConsec (uniqueSortedPairs (dates.map isocalendarYW))

/-- The `while cur in completed` loops of `_current_daily_streak` and
`_current_weekly_streak`: count how many consecutive `step`-iterates of
`cur` lie in `completed`.  The Python loop is unbounded but terminates
because the iterates are pairwise distinct while they stay inside the
finite set `completed`; the fuel `completed.length + 1` therefore never
runs out (`countBackFuel_lt` below makes this exact). -/
def countBackFuel [DecidableEq α] (completed : List α) (step : α → α) :
    Nat → α → Nat
  | 0, _ => 0
  | fuel + 1, cur =>
    if cur ∈ completed then countBackFuel completed step fuel (step cur) + 1
    else 0

/-- Function `_current_daily_streak` from `analytics.py`. -/
def current_daily_streak (dates : List Int) (today : Int) : Nat :=
  if dates.isEmpty then 0
  else
    if today ∈ dates then
      countBackFuel dates (· - 1) (dates.length + 1) today
    else if today - 1 ∈ dates then
      countBackFuel dates (· - 1) (dates.length + 1) (today - 1)
    else 0

/-- Function `_current_weekly_streak` from `analytics.py`. -/
def current_weekly_streak (dates : List Int) (today : Int) : Nat :=
  if dates.isEmpty then 0
  else
    let completedWeeks := dates.map isocalendarYW
    let thisWeek := isocalendarYW today
    let lastWeek := prevIsoWeek thisWeek
    if thisWeek ∈ completedWeeks then
      countBackFuel completedWeeks prevIsoWeek (completedWeeks.length + 1) thisWeek
    else if lastWeek ∈ completedWeeks then
      countBackFuel completedWeeks prevIsoWeek (completedWeeks.length + 1) lastWeek
    else 0

/-- Function `calculate_streak` from `analytics.py`: longest historical streak. -/
def calculate_streak (habit : Habit) : Nat :=
  if habit.completion_dates.isEmpty then 0
  else
    let dates := uniqueSortedDays (habit.completion_dates.map Timestamp.date)
    if strLower habit.periodicity = "weekly" then longest_weekly_streak dates
    else longest_daily_streak dates

/-- Function `calculate_current_streak` from `analytics.py`.  The Python parameter
`today: Optional[date] = None` becomes `today : Option Int`; the value
`date.today()` would read from the system clock is passed explicitly as
`systemToday`, so that `today = today or date.today()` becomes
`today.getD systemToday` (a supplied `date` is always truthy). -/
def calculate_current_streak (habit : Habit) (today : Option Int)
    (systemToday : Int) : Nat :=
  if habit.completion_dates.isEmpty then 0
  else
    let t := today.getD systemToday
    let dates := uniqueSortedDays (habit.completion_dates.map Timestamp.date)
    if strLower habit.periodicity = "weekly" then current_weekly_streak dates t
    else current_daily_streak dates t

/-- Result record of `longest_streak_overall` (the Python dict
`{"habits": ..., "streak": ...}`). -/
structure StreakResult where
  habits : List Habit
  streak : Nat
deriving Repr

/-- The accumulation loop of `longest_streak_overall` (`streak > longest`
starts a new singleton best list; `streak == longest and streak > 0`
appends; otherwise the state is unchanged). -/
def longestOverallAux : List Habit → Nat → List Habit → StreakResult
  | [], longest, best => ⟨best, longest⟩
  | h :: rest, longest, best =>
    if longest < calculate_streak h then
      longestOverallAux rest (calculate_streak h) [h]
    else if calculate_streak h = longest ∧ 0 < calculate_streak h then
      longestOverallAux rest longest (best ++ [h])
    else longestOverallAux rest longest best

/-- Function `longest_streak_overall` from `analytics.py`: all habits sharing the
longest streak, together with that streak. -/
def longest_streak_overall (habits : List Habit) : StreakResult :=
  longestOverallAux habits 0 []

/-- Function `longest_streak_by_habit` from `analytics.py`:
`next((h for h in habits if h.habit_id == habit_id), None)`, then the
streak of the found habit, or 0 when none matches. -/
def longest_streak_by_habit (habits : List Habit) (habit_id : Int) : Nat :=
  match habits.find? (fun h => h.habit_id == habit_id) with
  | some h => calculate_streak h
  | none => 0

/-! ### Sorted-deduplicated lists: basic lemmas -/

lemma mem_insertDay {x y : Int} :
    ∀ {l : List Int}, y ∈ insertDay x l ↔ y = x ∨ y ∈ l
  | [] => by simp [insertDay]
  | z :: zs => by
    simp only [insertDay]
    split
    · simp only [List.mem_cons]
    · split
      · next hxz =>
        subst hxz
        simp only [List.mem_cons]; tauto
      · simp only [List.mem_cons, mem_insertDay (l := zs)]; tauto

lemma head?_insertDay {x : Int} :
    ∀ {l : List Int}, (insertDay x l).head? = some x ∨
      (insertDay x l).head? = l.head?
  | [] => by simp [insertDay]
  | z :: zs => by
    simp only [insertDay]
    split
    · left; rfl
    · split
      · right; rfl
      · right; rfl

lemma chain'_insertDay {x : Int} :
    ∀ {l : List Int}, List.Chain' (· < ·) l →
      List.Chain' (· < ·) (insertDay x l)
  | [], _ => by simp [insertDay]
  | z :: zs, h => by
    by_cases h1 : x < z
    · simp only [insertDay, if_pos h1]
      exact List.chain'_cons.mpr ⟨h1, h⟩
    · by_cases h2 : x = z
      · simp only [insertDay, if_neg h1, if_pos h2]
        exact h
      · have hzx : z < x := by omega
        simp only [insertDay, if_neg h1, if_neg h2]
        rw [List.chain'_cons']
        refine ⟨?_, chain'_insertDay (List.chain'_cons'.mp h).2⟩
        intro w hw
        rcases head?_insertDay (x := x) (l := zs) with he | he
        · rw [he] at hw
          have hxw : x = w := Option.some.inj hw
          omega
        · rw [he] at hw
          rcases zs with _ | ⟨u, us⟩
          · exact absurd hw (by simp)
          · have huw : u = w := Option.some.inj hw
            have hzu : z < u := (List.chain'_cons.mp h).1
            omega

lemma chain'_uniqueSortedDays (l : List Int) :
    List.Chain' (· < ·) (uniqueSortedDays l) := by
  induction l with
  | nil => simp [uniqueSortedDays]
  | cons a as ih => exact chain'_insertDay ih

lemma mem_uniqueSortedDays {y : Int} {l : List Int} :
    y ∈ uniqueSortedDays l ↔ y ∈ l := by
  induction l with
  | nil => simp [uniqueSortedDays]
  | cons a as ih =>
    simp only [uniqueSortedDays, List.foldr_cons] at *
    rw [mem_insertDay, ih]
    simp

/-- Standard extensionality of strictly sorted lists: two `Chain'`-sorted
lists (for a transitive irreflexive relation) with the same members are
equal. -/
lemma sortedExt {α : Type} {r : α → α → Prop} (htr : ∀ a b c, r a b → r b c → r a c)
    (hirr : ∀ a, ¬ r a a) :
    ∀ {l l' : List α}, List.Chain' r l → List.Chain' r l' →
      (∀ x, x ∈ l ↔ x ∈ l') → l = l'
  | [], [], _, _, _ => rfl
  | [], b :: bs, _, _, hm => by
    exact absurd ((hm b).2 (List.mem_cons_self b bs)) (List.not_mem_nil b)
  | a :: as, [], _, _, hm => by
    exact absurd ((hm a).1 (List.mem_cons_self a as)) (List.not_mem_nil a)
  | a :: as, b :: bs, hl, hl', hm => by
    have hhead : ∀ (c : α) (cs : List α), List.Chain' r (c :: cs) →
        ∀ x ∈ cs, r c x := by
      intro c cs hc
      induction cs generalizing c with
      | nil => intro x hx; cases hx
      | cons d ds ih =>
        intro x hx
        have hcd : r c d := (List.chain'_cons.mp hc).1
        rcases List.mem_cons.mp hx with rfl | hx2
        · exact hcd
        · exact htr _ _ _ hcd (ih d (List.chain'_cons'.mp hc).2 x hx2)
    have hab : a = b := by
      have ha' : a ∈ b :: bs := (hm a).1 (List.mem_cons_self a as)
      have hb' : b ∈ a :: as := (hm b).2 (List.mem_cons_self b bs)
      rcases List.mem_cons.mp ha' with h1 | h1
      · exact h1
      · rcases List.mem_cons.mp hb' with h2 | h2
        · exact h2.symm
        · exact absurd (htr _ _ _ (hhead a as hl b h2) (hhead b bs hl' a h1))
            (hirr a)
    subst hab
    have htails : ∀ x, x ∈ as ↔ x ∈ bs := by
      intro x
      constructor
      · intro hx
        have hax : r a x := hhead a as hl x hx
        have : x ∈ a :: bs := (hm x).1 (List.mem_cons_of_mem a hx)
        rcases List.mem_cons.mp this with h1 | h1
        · exact absurd (h1 ▸ hax) (hirr a)
        · exact h1
      · intro hx
        have hax : r a x := hhead a bs hl' x hx
        have : x ∈ a :: as := (hm x).2 (List.mem_cons_of_mem a hx)
        rcases List.mem_cons.mp this with h1 | h1
        · exact absurd (h1 ▸ hax) (hirr a)
        · exact h1
    have hta : List.Chain' r as := (List.chain'_cons'.mp hl).2
    have htb : List.Chain' r bs := (List.chain'_cons'.mp hl').2
    exact congrArg (List.cons a) (sortedExt htr hirr hta htb htails)

/-- The value of `uniqueSortedDays` depends only on the set of members of its input. -/
lemma uniqueSortedDays_congr {l l' : List Int}
    (h : ∀ x, x ∈ l ↔ x ∈ l') : uniqueSortedDays l = uniqueSortedDays l' := by
  refine sortedExt (fun a b c => by omega) (fun a => by omega)
    (chain'_uniqueSortedDays l) (chain'_uniqueSortedDays l') ?_
  intro x
  rw [mem_uniqueSortedDays, mem_uniqueSortedDays]
  exact h x

lemma pairLt_trans {a b c : Int × Int} (h1 : pairLt a b) (h2 : pairLt b c) :
    pairLt a c := by
  obtain ⟨a1, a2⟩ := a; obtain ⟨b1, b2⟩ := b; obtain ⟨c1, c2⟩ := c
  unfold pairLt at *
  simp only at *
  omega

lemma pairLt_irrefl (a : Int × Int) : ¬ pairLt a a := by
  obtain ⟨a1, a2⟩ := a
  unfold pairLt
  simp only
  omega

lemma pairLt_of_not {a b : Int × Int} (h1 : ¬ pairLt a b) (h2 : a ≠ b) :
    pairLt b a := by
  obtain ⟨a1, a2⟩ := a; obtain ⟨b1, b2⟩ := b
  unfold pairLt at *
  simp only [Prod.mk.injEq, not_and] at *
  by_cases he : a1 = b1
  · subst he
    refine Or.inr ⟨rfl, ?_⟩
    have : a2 ≠ b2 := fun hc => h2 (by rw [hc])
    omega
  · omega

lemma mem_insertPair {x y : Int × Int} :
    ∀ {l : List (Int × Int)}, y ∈ insertPair x l ↔ y = x ∨ y ∈ l
  | [] => by simp [insertPair]
  | z :: zs => by
    simp only [insertPair]
    split
    · simp only [List.mem_cons]
    · split
      · next hxz =>
        subst hxz
        simp only [List.mem_cons]
        tauto
      · simp only [List.mem_cons, mem_insertPair (l := zs)]
        tauto

lemma head?_insertPair {x : Int × Int} :
    ∀ {l : List (Int × Int)}, (insertPair x l).head? = some x ∨
      (insertPair x l).head? = l.head?
  | [] => by simp [insertPair]
  | z :: zs => by
    simp only [insertPair]
    split
    · left; rfl
    · split
      · right; rfl
      · right; rfl

lemma chain'_insertPair {x : Int × Int} :
    ∀ {l : List (Int × Int)}, List.Chain' pairLt l →
      List.Chain' pairLt (insertPair x l)
  | [], _ => by simp [insertPair]
  | z :: zs, h => by
    by_cases h1 : pairLt x z
    · simp only [insertPair, if_pos h1]
      exact List.chain'_cons.mpr ⟨h1, h⟩
    · by_cases h2 : x = z
      · simp only [insertPair, if_neg h1, if_pos h2]
        exact h
      · have hzx : pairLt z x := pairLt_of_not h1 h2
        simp only [insertPair, if_neg h1, if_neg h2]
        rw [List.chain'_cons']
        refine ⟨?_, chain'_insertPair (List.chain'_cons'.mp h).2⟩
        intro w hw
        rcases head?_insertPair (x := x) (l := zs) with he | he
        · rw [he] at hw
          have hxw : x = w := Option.some.inj hw
          exact hxw ▸ hzx
        · rw [he] at hw
          rcases zs with _ | ⟨u, us⟩
          · exact absurd hw (by simp)
          · have huw : u = w := Option.some.inj hw
            exact huw ▸ (List.chain'_cons.mp h).1

lemma chain'_uniqueSortedPairs (l : List (Int × Int)) :
    List.Chain' pairLt (uniqueSortedPairs l) := by
  induction l with
  | nil => simp [uniqueSortedPairs]
  | cons a as ih => exact chain'_insertPair ih

lemma mem_uniqueSortedPairs {y : Int × Int} {l : List (Int × Int)} :
    y ∈ uniqueSortedPairs l ↔ y ∈ l := by
  induction l with
  | nil => simp [uniqueSortedPairs]
  | cons a as ih =>
    simp only [uniqueSortedPairs, List.foldr_cons] at *
    rw [mem_insertPair, ih]
    simp

/-- The value of `uniqueSortedPairs` depends only on the set of members of its input. -/
lemma uniqueSortedPairs_congr {l l' : List (Int × Int)}
    (h : ∀ x, x ∈ l ↔ x ∈ l') :
    uniqueSortedPairs l = uniqueSortedPairs l' := by
  refine sortedExt (r := pairLt) (fun _ _ _ h1 h2 => pairLt_trans h1 h2)
    pairLt_irrefl
    (chain'_uniqueSortedPairs l) (chain'_uniqueSortedPairs l') ?_
  intro x
  rw [mem_uniqueSortedPairs, mem_uniqueSortedPairs]
  exact h x

/-! ### The scanning loop: generic lemmas

`longestRunAux consec prev rest current longest` is the state of the scan
after having processed a front part of the full list, the last processed
element being `prev`, the length of the current adjacency run ending at
`prev` being tracked in `current`, and the best length seen so far in
`longest`.  The lemmas below say that the final result is at least
`longest` (monotonicity), at least the length of any adjacency-chain that
occurs contiguously in the remaining input (given consistent state), and that the
result is itself achieved by some contiguous adjacency-chain. -/

lemma longestRunAux_ge {α : Type} (consec : α → α → Bool) :
    ∀ (rest : List α) (prev : α) (current longest : Nat),
      longest ≤ longestRunAux consec prev rest current longest
  | [], _, _, _ => Nat.le_refl _
  | y :: ys, prev, current, longest => by
    simp only [longestRunAux]
    split
    · exact le_trans (le_max_left _ _)
        (longestRunAux_ge consec ys y (current + 1) _)
    · exact longestRunAux_ge consec ys y 1 longest

lemma longestRunAux_mono {α : Type} (consec : α → α → Bool) :
    ∀ (rest : List α) (prev : α) (c1 l1 c2 l2 : Nat), c1 ≤ c2 → l1 ≤ l2 →
      longestRunAux consec prev rest c1 l1 ≤
        longestRunAux consec prev rest c2 l2
  | [], _, _, _, _, _, _, hl => hl
  | y :: ys, prev, c1, l1, c2, l2, hc, hl => by
    simp only [longestRunAux]
    split
    · exact longestRunAux_mono consec ys y _ _ _ _ (by omega)
        (max_le_max hl (by omega))
    · exact longestRunAux_mono consec ys y _ _ _ _ (le_refl 1) hl

lemma longestRun_cons_ge {α : Type} (consec : α → α → Bool)
    (x : α) (xs : List α) :
    longestRun consec xs ≤ longestRun consec (x :: xs) := by
  cases xs with
  | nil => simp [longestRun]
  | cons y ys =>
    simp only [longestRun, longestRunAux]
    split
    · exact longestRunAux_mono consec ys y 1 1 2 2 (by omega) (by omega)
    · exact le_refl _

lemma longestRunAux_ge_front_run {α : Type} (consec : α → α → Bool) :
    ∀ (p rest : List α) (prev : α) (current longest : Nat) (t : List α),
      current ≤ longest → p ++ t = rest →
      List.Chain' (fun a b => consec a b = true) (prev :: p) →
      current + p.length ≤ longestRunAux consec prev rest current longest := by
  intro p
  induction p with
  | nil =>
    intro rest prev current longest t hcl _ _
    simpa using le_trans hcl (longestRunAux_ge consec rest prev current longest)
  | cons y p' ih =>
    intro rest prev current longest t hcl hpre hchain
    subst hpre
    have hcy : consec prev y = true := (List.chain'_cons.mp hchain).1
    simp only [List.cons_append, longestRunAux, hcy, if_true]
    have := ih (p' ++ t) y (current + 1) (max longest (current + 1)) t
      (le_max_right _ _) rfl (List.chain'_cons.mp hchain).2
    simp only [List.length_cons]
    simp only [List.append_eq] at this ⊢
    omega

lemma longestRunAux_ge_chain {α : Type} (consec : α → α → Bool) :
    ∀ (rest : List α) (prev : α) (current longest : Nat) (r s t : List α),
      1 ≤ current → current ≤ longest → s ++ r ++ t = rest →
      List.Chain' (fun a b => consec a b = true) r →
      r.length ≤ longestRunAux consec prev rest current longest := by
  intro rest
  induction rest with
  | nil =>
    intro prev current longest r s t _ _ hsplit _
    have hr : r = [] := by cases s <;> cases r <;> simp_all
    subst hr
    simp only [longestRunAux, List.length_nil]
    exact Nat.zero_le _
  | cons y ys ih =>
    intro prev current longest r s t h1 hcl hsplit hchain
    cases s with
    | nil =>
      cases r with
      | nil => simpa using Nat.zero_le _
      | cons a p =>
        have ha : a = y ∧ p ++ t = ys := by simpa using hsplit
        obtain ⟨rfl, hpt⟩ := ha
        cases hc : consec prev a with
        | true =>
          simp only [longestRunAux, hc, if_true]
          have := longestRunAux_ge_front_run consec p ys a (current + 1)
            (max longest (current + 1)) t (le_max_right _ _) hpt hchain
          simp only [List.length_cons]
          omega
        | false =>
          simp only [longestRunAux, hc, if_false, Bool.false_eq_true]
          have := longestRunAux_ge_front_run consec p ys a 1 longest t
            (le_trans h1 hcl) hpt hchain
          simp only [List.length_cons]
          omega
    | cons b s' =>
      have hb : b = y ∧ s' ++ r ++ t = ys := by simpa using hsplit
      cases hc : consec prev y with
      | true =>
        simp only [longestRunAux, hc, if_true]
        exact ih y (current + 1) (max longest (current + 1)) r s' t
          (by omega) (le_max_right _ _) hb.2 hchain
      | false =>
        simp only [longestRunAux, hc, if_false, Bool.false_eq_true]
        exact ih y 1 longest r s' t (le_refl 1) (le_trans h1 hcl) hb.2 hchain

/-- Any adjacency-chain that occurs contiguously inside `l` is no longer
than the scan result. -/
lemma longestRun_ge_chain {α : Type} (consec : α → α → Bool)
    {l r : List α} (s t : List α) (hsplit : s ++ r ++ t = l)
    (hchain : List.Chain' (fun a b => consec a b = true) r) :
    r.length ≤ longestRun consec l := by
  cases l with
  | nil =>
    have hr : r = [] := by cases s <;> cases r <;> simp_all
    subst hr
    simp [longestRun]
  | cons x xs =>
    simp only [longestRun]
    cases s with
    | nil =>
      cases r with
      | nil => simpa using Nat.zero_le _
      | cons a p =>
        have ha : a = x ∧ p ++ t = xs := by simpa using hsplit
        obtain ⟨rfl, hpt⟩ := ha
        have := longestRunAux_ge_front_run consec p xs a 1 1 t
          (le_refl 1) hpt hchain
        simp only [List.length_cons]
        omega
    | cons b s' =>
      have hb : b = x ∧ s' ++ r ++ t = xs := by simpa using hsplit
      exact longestRunAux_ge_chain consec xs x 1 1 r s' t
        (le_refl 1) (le_refl 1) hb.2 hchain

lemma longestRunAux_achieved {α : Type} (consec : α → α → Bool) :
    ∀ (rest : List α) (prev : α) (current longest : Nat) (L rc : List α),
      List.Chain' (fun a b => consec a b = true) (rc ++ [prev]) →
      (rc ++ [prev]).length = current →
      (∃ s, s ++ (rc ++ prev :: rest) = L) →
      (∃ r, (∃ s t, s ++ r ++ t = L) ∧
        List.Chain' (fun a b => consec a b = true) r ∧ r.length = longest) →
      ∃ r, (∃ s t, s ++ r ++ t = L) ∧
        List.Chain' (fun a b => consec a b = true) r ∧
        r.length = longestRunAux consec prev rest current longest := by
  intro rest
  induction rest with
  | nil =>
    intro prev current longest L rc _ _ _ hl
    simpa [longestRunAux] using hl
  | cons y ys ih =>
    intro prev current longest L rc hchain hlen hsuf hl
    obtain ⟨s, hs⟩ := hsuf
    cases hcy : consec prev y with
    | true =>
      simp only [longestRunAux, hcy, if_true]
      apply ih y (current + 1) (max longest (current + 1)) L (rc ++ [prev])
      · rw [List.chain'_append]
        refine ⟨hchain, List.chain'_singleton y, ?_⟩
        intro a ha b hb
        rw [List.getLast?_concat] at ha
        have h1 : prev = a := Option.some.inj ha
        have h2 : y = b := Option.some.inj hb
        rw [← h1, ← h2]
        exact hcy
      · simp only [List.length_append, List.length_singleton] at hlen ⊢
        omega
      · refine ⟨s, ?_⟩
        rw [← hs]
        simp [List.append_assoc]
      · rcases Nat.le_total (current + 1) longest with hle | hle
        · rw [max_eq_left hle]
          exact hl
        · rw [max_eq_right hle]
          refine ⟨(rc ++ [prev]) ++ [y], ⟨s, ys, ?_⟩, ?_, ?_⟩
          · rw [← hs]
            simp [List.append_assoc]
          · rw [List.chain'_append]
            refine ⟨hchain, List.chain'_singleton y, ?_⟩
            intro a ha b hb
            rw [List.getLast?_concat] at ha
            have h1 : prev = a := Option.some.inj ha
            have h2 : y = b := Option.some.inj hb
            rw [← h1, ← h2]
            exact hcy
          · simp only [List.length_append, List.length_singleton] at hlen ⊢
            omega
    | false =>
      simp only [longestRunAux, hcy, if_false, Bool.false_eq_true]
      apply ih y 1 longest L []
      · simpa using List.chain'_singleton y
      · simp
      · refine ⟨s ++ rc ++ [prev], ?_⟩
        rw [← hs]
        simp [List.append_assoc]
      · exact hl

/-- The scan result is achieved: some adjacency-chain occurring
contiguously inside `l` has exactly that length. -/
lemma longestRun_achieved {α : Type} (consec : α → α → Bool) (l : List α) :
    ∃ r, (∃ s t, s ++ r ++ t = l) ∧
      List.Chain' (fun a b => consec a b = true) r ∧
      r.length = longestRun consec l := by
  cases l with
  | nil => exact ⟨[], ⟨[], [], rfl⟩, List.chain'_nil, rfl⟩
  | cons x xs =>
    simp only [longestRun]
    apply longestRunAux_achieved consec xs x 1 1 (x :: xs) []
    · simpa using List.chain'_singleton x
    · simp
    · exact ⟨[], by simp⟩
    · exact ⟨[x], ⟨[], xs, rfl⟩, List.chain'_singleton x, rfl⟩

/-! ### The backward-walking while loop: characterization -/

lemma countBackFuel_mem {α : Type} [DecidableEq α]
    (completed : List α) (step : α → α) :
    ∀ (fuel : Nat) (cur : α) (i : Nat),
      i < countBackFuel completed step fuel cur → step^[i] cur ∈ completed
  | 0, _, _ => by simp [countBackFuel]
  | fuel + 1, cur, i => by
    simp only [countBackFuel]
    split
    · next hmem =>
      intro hi
      cases i with
      | zero => simpa using hmem
      | succ j =>
        rw [Function.iterate_succ_apply]
        exact countBackFuel_mem completed step fuel (step cur) j (by omega)
    · omega

lemma countBackFuel_le {α : Type} [DecidableEq α]
    (completed : List α) (step : α → α) :
    ∀ (fuel : Nat) (cur : α), countBackFuel completed step fuel cur ≤ fuel
  | 0, _ => Nat.le_refl 0
  | fuel + 1, cur => by
    simp only [countBackFuel]
    split
    · have := countBackFuel_le completed step fuel (step cur)
      omega
    · omega

lemma countBackFuel_not_mem {α : Type} [DecidableEq α]
    (completed : List α) (step : α → α) :
    ∀ (fuel : Nat) (cur : α),
      countBackFuel completed step fuel cur < fuel →
      step^[countBackFuel completed step fuel cur] cur ∉ completed
  | 0, _ => by omega
  | fuel + 1, cur => by
    simp only [countBackFuel]
    split
    · next hmem =>
      intro hlt
      rw [Function.iterate_succ_apply]
      exact countBackFuel_not_mem completed step fuel (step cur) (by omega)
    · next hmem =>
      intro _
      simpa using hmem

lemma countBackFuel_congr {α : Type} [DecidableEq α]
    {c c' : List α} (step : α → α) (h : ∀ x, x ∈ c ↔ x ∈ c') :
    ∀ (fuel : Nat) (cur : α),
      countBackFuel c step fuel cur = countBackFuel c' step fuel cur
  | 0, _ => rfl
  | fuel + 1, cur => by
    simp only [countBackFuel]
    by_cases hm : cur ∈ c
    · rw [if_pos hm, if_pos ((h cur).mp hm),
        countBackFuel_congr step h fuel (step cur)]
    · rw [if_neg hm, if_neg (fun hc => hm ((h cur).mpr hc))]

/-- Pigeonhole: as long as the `step`-iterates of `cur` are pairwise
distinct (which they are whenever they stay inside `completed`, for both
steps the engine uses), the fuel `completed.length + 1` is never
exhausted — so `countBackFuel` computes exactly what the unbounded Python
`while` loop computes. -/
lemma countBackFuel_lt {α : Type} [DecidableEq α]
    (completed : List α) (step : α → α) (cur : α)
    (hd : ∀ i j : Nat, i < j → j ≤ completed.length →
      step^[i] cur ≠ step^[j] cur) :
    countBackFuel completed step (completed.length + 1) cur <
      completed.length + 1 := by
  by_contra hcon
  have hn : countBackFuel completed step (completed.length + 1) cur =
      completed.length + 1 := by
    have := countBackFuel_le completed step (completed.length + 1) cur
    omega
  have hmem : ∀ i : Nat, i < completed.length + 1 →
      step^[i] cur ∈ completed := by
    intro i hi
    exact countBackFuel_mem completed step (completed.length + 1) cur i
      (by omega)
  have hcard : (Finset.range (completed.length + 1)).card ≤
      completed.toFinset.card := by
    apply Finset.card_le_card_of_injOn (fun i => step^[i] cur)
    · intro i hi
      rw [List.mem_toFinset]
      exact hmem i (Finset.mem_range.mp hi)
    · intro i hi j hj hij
      have hi' := Finset.mem_range.mp hi
      have hj' := Finset.mem_range.mp hj
      by_contra hne
      rcases Nat.lt_or_ge i j with hlt | hge
      · exact hd i j hlt (by omega) hij
      · exact hd j i (by omega) (by omega) hij.symm
  have := List.toFinset_card_le completed
  simp only [Finset.card_range] at hcard
  omega

/-! ### `longest_streak_overall`: fold invariant -/

/-- Largest `calculate_streak` value over a list of habits (0 when the
list is empty); the reference value for `longest_streak_overall`. -/
def maxStreak (habits : List Habit) : Nat :=
  (habits.map calculate_streak).foldr max 0

lemma maxStreak_cons (h : Habit) (hs : List Habit) :
    maxStreak (h :: hs) = max (calculate_streak h) (maxStreak hs) := rfl

lemma longestOverallAux_spec :
    ∀ (rest : List Habit) (longest : Nat) (best : List Habit),
      longestOverallAux rest longest best =
        ⟨(if longest < maxStreak rest then [] else best) ++
            rest.filter (fun x =>
              decide (calculate_streak x = max longest (maxStreak rest)) &&
                decide (0 < calculate_streak x)),
          max longest (maxStreak rest)⟩ := by
  intro rest
  induction rest with
  | nil =>
    intro longest best
    simp [longestOverallAux, maxStreak]
  | cons h hs ih =>
    intro longest best
    simp only [longestOverallAux, maxStreak_cons]
    by_cases h1 : longest < calculate_streak h
    · rw [if_pos h1, ih]
      have hpos : 0 < calculate_streak h := by omega
      rcases Nat.le_total (maxStreak hs) (calculate_streak h) with hms | hms
      · have e2 : max (calculate_streak h) (maxStreak hs) =
            calculate_streak h := by omega
        have e1 : max longest (calculate_streak h) = calculate_streak h := by
          omega
        simp only [e2, e1]
        rw [if_neg (by omega : ¬ (calculate_streak h < maxStreak hs)),
          if_pos h1]
        rw [List.filter_cons_of_pos (by simp [hpos])]
        simp
      · have e2 : max (calculate_streak h) (maxStreak hs) = maxStreak hs := by
          omega
        have e1 : max longest (maxStreak hs) = maxStreak hs := by omega
        simp only [e2, e1]
        rw [if_pos (by omega : longest < maxStreak hs)]
        by_cases h5 : calculate_streak h < maxStreak hs
        · rw [if_pos h5]
          rw [List.filter_cons_of_neg (by simp; omega)]
        · have e6 : calculate_streak h = maxStreak hs := by omega
          rw [if_neg h5]
          rw [List.filter_cons_of_pos
            (by simp only [Bool.and_eq_true, decide_eq_true_eq]
                exact ⟨e6, hpos⟩)]
          simp
    · rw [if_neg h1]
      by_cases h2 : calculate_streak h = longest ∧ 0 < calculate_streak h
      · rw [if_pos h2, ih]
        obtain ⟨h2e, h2p⟩ := h2
        have e2 : max (calculate_streak h) (maxStreak hs) =
            max longest (maxStreak hs) := by omega
        simp only [e2]
        have e1 : max longest (max longest (maxStreak hs)) =
            max longest (maxStreak hs) := by omega
        simp only [e1]
        rcases Nat.lt_or_ge longest (maxStreak hs) with h5 | h5
        · have e3 : max longest (maxStreak hs) = maxStreak hs := by omega
          simp only [e3]
          rw [if_pos h5, if_pos h5]
          rw [List.filter_cons_of_neg (by simp; omega)]
        · have e3 : max longest (maxStreak hs) = longest := by omega
          simp only [e3]
          rw [if_neg (by omega : ¬ (longest < maxStreak hs)),
            if_neg (by omega : ¬ (longest < longest))]
          rw [List.filter_cons_of_pos
            (by simp only [Bool.and_eq_true, decide_eq_true_eq]
                exact ⟨h2e, h2p⟩)]
          simp
      · rw [if_neg h2, ih]
        have hle : calculate_streak h ≤ longest := by omega
        rcases Nat.lt_or_ge longest (maxStreak hs) with h5 | h5
        · have e2 : max (calculate_streak h) (maxStreak hs) = maxStreak hs := by
            omega
          have e1 : max longest (maxStreak hs) = maxStreak hs := by omega
          simp only [e2, e1]
          rw [if_pos h5]
          rw [List.filter_cons_of_neg (by simp; omega)]
        · have e2 : max longest (max (calculate_streak h) (maxStreak hs)) =
              longest := by omega
          have e1 : max longest (maxStreak hs) = longest := by omega
          simp only [e1]
          have e2b : max (calculate_streak h) (maxStreak hs) ≤ longest := by
            omega
          rw [if_neg (by omega : ¬ (longest < maxStreak hs)),
            if_neg (by omega :
              ¬ (longest < max (calculate_streak h) (maxStreak hs)))]
          have e3 : max longest (max (calculate_streak h) (maxStreak hs)) =
              longest := by omega
          simp only [e3]
          rw [List.filter_cons_of_neg
            (by simp only [Bool.and_eq_true, decide_eq_true_eq, not_and]
                intro ha hb
                exact h2 ⟨ha, hb⟩)]

/-! ### Claims C4, C7, C8, C9, C10 -/

/-- C4: `longest_streak_overall` returns the maximum of `calculate_streak`
over the list together with exactly the habits achieving that maximum when
it is positive; habits with streak 0 are never included, so an empty habit
list (or one where every habit has streak 0, making the filter empty)
yields `⟨[], 0⟩`. -/
theorem c4_longest_streak_overall (habits : List Habit) :
    (longest_streak_overall habits).streak = maxStreak habits ∧
    (longest_streak_overall habits).habits =
      habits.filter (fun x =>
        decide (calculate_streak x = maxStreak habits) &&
          decide (0 < calculate_streak x)) ∧
    longest_streak_overall [] = ⟨[], 0⟩ := by
  refine ⟨?_, ?_, rfl⟩
  · unfold longest_streak_overall
    rw [longestOverallAux_spec]
    simp
  · unfold longest_streak_overall
    rw [longestOverallAux_spec]
    simp [Nat.zero_max]

/-- C7 counterexample: with the optional `today` parameter omitted
(`None`), the result of `calculate_current_streak` changes with the system
clock value (`date.today()`), so the function is not determined by the
habit's data and a supplied `today` argument alone. -/
theorem c7_counterexample :
    calculate_current_streak
        ⟨1, "meditate", "daily", ⟨1, 0⟩, none, [⟨5, 0⟩]⟩ none 5 ≠
      calculate_current_streak
        ⟨1, "meditate", "daily", ⟨1, 0⟩, none, [⟨5, 0⟩]⟩ none 7 := by
  decide

/-- C7 (amended): when the reference date `today` is supplied, the result
of `calculate_current_streak` is a deterministic function of the habit's
data and that date only — the system clock value is ignored; only when
`today` is omitted does the code fall back to `date.today()`. -/
theorem c7_explicit_today_deterministic (habit : Habit) (today : Int)
    (sys1 sys2 : Int) :
    calculate_current_streak habit (some today) sys1 =
      calculate_current_streak habit (some today) sys2 := rfl

/-- C8: `longest_streak_by_habit` returns the streak of a habit of the
list carrying the requested id when one exists, and 0 when none does; the
function is total in both cases (absence is not an error). -/
theorem c8_longest_streak_by_habit (habits : List Habit) (hid : Int) :
    ((∃ h ∈ habits, h.habit_id = hid) →
      ∃ h ∈ habits, h.habit_id = hid ∧
        longest_streak_by_habit habits hid = calculate_streak h) ∧
    ((∀ h ∈ habits, h.habit_id ≠ hid) →
      longest_streak_by_habit habits hid = 0) := by
  unfold longest_streak_by_habit
  cases hfind : habits.find? (fun h => h.habit_id == hid) with
  | none =>
    constructor
    · rintro ⟨h, hmem, hida⟩
      have := List.find?_eq_none.mp hfind h hmem
      simp [hida] at this
    · intro _
      rfl
  | some h =>
    constructor
    · intro _
      refine ⟨h, List.mem_of_find?_eq_some hfind, ?_, rfl⟩
      have := List.find?_some hfind
      simpa using this
    · intro hall
      have hm := List.mem_of_find?_eq_some hfind
      have hp := List.find?_some hfind
      simp only [beq_iff_eq] at hp
      exact absurd hp (hall h hm)

theorem c8_witness :
    (∃ h ∈ [(⟨7, "w", "daily", ⟨1, 0⟩, none, [⟨5, 0⟩]⟩ : Habit)],
      h.habit_id = 7 ∧
        longest_streak_by_habit
            [(⟨7, "w", "daily", ⟨1, 0⟩, none, [⟨5, 0⟩]⟩ : Habit)] 7 =
          calculate_streak h) ∧
    longest_streak_by_habit ([] : List Habit) 9 = 0 :=
  ⟨(c8_longest_streak_by_habit
        [(⟨7, "w", "daily", ⟨1, 0⟩, none, [⟨5, 0⟩]⟩ : Habit)] 7).1
      ⟨⟨7, "w", "daily", ⟨1, 0⟩, none, [⟨5, 0⟩]⟩, by simp, rfl⟩,
    (c8_longest_streak_by_habit ([] : List Habit) 9).2 (by simp)⟩

/-- C9: any periodicity whose lowercase form differs from "weekly"
(for example "monthly" or the empty string) makes both streak functions
behave exactly as they do for the same habit marked "daily"; every
periodicity string takes one of the two (total) branches, so no value
raises an error. -/
theorem c9_periodicity_fallback (habit : Habit) (today : Option Int)
    (sys : Int) (hp : strLower habit.periodicity ≠ "weekly") :
    calculate_streak habit =
      calculate_streak { habit with periodicity := "daily" } ∧
    calculate_current_streak habit today sys =
      calculate_current_streak { habit with periodicity := "daily" }
        today sys := by
  have hd : strLower "daily" ≠ "weekly" := by decide
  constructor
  · simp [calculate_streak, hp, hd]
  · simp [calculate_current_streak, hp, hd]

theorem c9_witness :
    strLower "monthly" ≠ "weekly" ∧
    (calculate_streak ⟨2, "read", "monthly", ⟨1, 0⟩, none, [⟨5, 0⟩, ⟨6, 0⟩]⟩ =
        calculate_streak ⟨2, "read", "daily", ⟨1, 0⟩, none, [⟨5, 0⟩, ⟨6, 0⟩]⟩ ∧
      calculate_current_streak
          ⟨2, "read", "monthly", ⟨1, 0⟩, none, [⟨5, 0⟩, ⟨6, 0⟩]⟩ (some 6) 0 =
        calculate_current_streak
          ⟨2, "read", "daily", ⟨1, 0⟩, none, [⟨5, 0⟩, ⟨6, 0⟩]⟩ (some 6) 0) :=
  ⟨by decide,
    c9_periodicity_fallback ⟨2, "read", "monthly", ⟨1, 0⟩, none, [⟨5, 0⟩, ⟨6, 0⟩]⟩
      (some 6) 0 (by decide)⟩

/-- C10: a weekly habit completed in ISO weeks (2020, 52) and (2021, 1) —
ISO year 2020 has 53 weeks (ordinal 737787, December 28 2020, is the
Monday of week (2020, 53)) and week (2020, 53) has no completion — still
gets longest streak 2, because the scan's rollover test accepts week 52
to week 1 of the next year as consecutive; the current-streak backward
walk instead steps from (2021, 1) to the true previous ISO week
(2020, 53), finds no completion there, and reports 1. -/
theorem c10_week53_gap :
    calculate_streak
        ⟨3, "gym", "weekly", ⟨1, 0⟩, none, [⟨737780, 0⟩, ⟨737794, 0⟩]⟩ = 2 ∧
    calculate_current_streak
        ⟨3, "gym", "weekly", ⟨1, 0⟩, none, [⟨737780, 0⟩, ⟨737794, 0⟩]⟩
        (some 737794) 0 = 1 ∧
    isocalendarYW 737780 = (2020, 52) ∧
    isocalendarYW 737794 = (2021, 1) ∧
    prevIsoWeek (2021, 1) = (2020, 53) ∧
    isocalendarYW 737787 = (2020, 53) := by
  refine ⟨?_, ?_, ?_, ?_, ?_, ?_⟩ <;> decide

/-! ### Daily runs of consecutive dates versus the scan -/

lemma chainLt_mem_gt {x : Int} :
    ∀ {xs : List Int}, List.Chain' (· < ·) (x :: xs) → ∀ z ∈ xs, x < z
  | [], _, z, hz => absurd hz (List.not_mem_nil z)
  | y :: ys, h, z, hz => by
    have hxy : x < y := (List.chain'_cons.mp h).1
    rcases List.mem_cons.mp hz with rfl | hz2
    · exact hxy
    · exact lt_trans hxy
        (chainLt_mem_gt (List.chain'_cons.mp h).2 z hz2)

lemma uniqueSortedDays_ne_nil {l : List Int} (h : l ≠ []) :
    uniqueSortedDays l ≠ [] := by
  obtain ⟨x, hx⟩ := List.exists_mem_of_ne_nil l h
  exact List.ne_nil_of_mem (mem_uniqueSortedDays.mpr hx)

lemma uniqueSortedPairs_ne_nil {l : List (Int × Int)} (h : l ≠ []) :
    uniqueSortedPairs l ≠ [] := by
  obtain ⟨x, hx⟩ := List.exists_mem_of_ne_nil l h
  exact List.ne_nil_of_mem (mem_uniqueSortedPairs.mpr hx)

/-- If the `k` consecutive dates following `prev` are all members of the
strictly sorted remaining input, the scan reaches at least `current + k`. -/
lemma dailyRunAux_bound :
    ∀ (rest : List Int) (prev : Int) (current longest : Nat),
      current ≤ longest → List.Chain' (· < ·) (prev :: rest) →
      ∀ k : Nat, (∀ i : Nat, i < k → prev + 1 + (i : Int) ∈ rest) →
      current + k ≤ longestRunAux dayConsec prev rest current longest := by
  intro rest
  induction rest with
  | nil =>
    intro prev current longest hcl _ k hmem
    have hk : k = 0 := by
      by_contra hk
      exact absurd (hmem 0 (by omega)) (List.not_mem_nil _)
    subst hk
    simpa [longestRunAux] using hcl
  | cons y ys ih =>
    intro prev current longest hcl hchain k hmem
    cases k with
    | zero =>
      have := longestRunAux_ge dayConsec (y :: ys) prev current longest
      omega
    | succ k' =>
      have h0 : prev + 1 + ((0 : Nat) : Int) ∈ y :: ys := hmem 0 (by omega)
      rcases List.mem_cons.mp h0 with hy | hy
      · have hy' : y = prev + 1 := by push_cast at hy; omega
        have hc : dayConsec prev y = true := by
          simp [dayConsec]
          omega
        simp only [longestRunAux, hc, if_true]
        have hnext : ∀ i : Nat, i < k' → y + 1 + (i : Int) ∈ ys := by
          intro i hi
          have hm : prev + 1 + ((i + 1 : Nat) : Int) ∈ y :: ys :=
            hmem (i + 1) (by omega)
          have heq : prev + 1 + ((i + 1 : Nat) : Int) = y + 1 + (i : Int) := by
            push_cast
            omega
          rw [heq] at hm
          rcases List.mem_cons.mp hm with habs | hok
          · omega
          · exact hok
        have := ih y (current + 1) (max longest (current + 1))
          (le_max_right _ _) (List.chain'_cons.mp hchain).2 k' hnext
        omega
      · have h1 : prev < y := (List.chain'_cons.mp hchain).1
        have h2 : y < prev + 1 + ((0 : Nat) : Int) :=
          chainLt_mem_gt (List.chain'_cons.mp hchain).2 _ hy
        push_cast at h2
        omega

/-- If `k` consecutive dates starting at `a` all belong to the strictly
sorted list `l`, the scan result on `l` is at least `k`. -/
lemma dailyRunBound :
    ∀ (l : List Int), List.Chain' (· < ·) l →
      ∀ (a : Int) (k : Nat), (∀ i : Nat, i < k → a + (i : Int) ∈ l) →
      k ≤ longestRun dayConsec l
  | [], _, a, k, hmem => by
    by_contra hk
    exact absurd (hmem 0 (by omega)) (List.not_mem_nil _)
  | x :: xs, hchain, a, k, hmem => by
    cases k with
    | zero => exact Nat.zero_le _
    | succ k' =>
      have ha : a + ((0 : Nat) : Int) ∈ x :: xs := hmem 0 (by omega)
      push_cast at ha
      simp only [add_zero] at ha
      rcases List.mem_cons.mp ha with rfl | hmem_xs
      · have hnext : ∀ i : Nat, i < k' → a + 1 + (i : Int) ∈ xs := by
          intro i hi
          have hm : a + ((i + 1 : Nat) : Int) ∈ a :: xs := hmem (i + 1) (by omega)
          have heq : a + ((i + 1 : Nat) : Int) = a + 1 + (i : Int) := by
            push_cast
            omega
          rw [heq] at hm
          rcases List.mem_cons.mp hm with habs | hok
          · omega
          · exact hok
        have := dailyRunAux_bound xs a 1 1 (le_refl 1) hchain k' hnext
        simp only [longestRun]
        omega
      · have hx : x < a := chainLt_mem_gt hchain a hmem_xs
        have hall : ∀ i : Nat, i < k' + 1 → a + (i : Int) ∈ xs := by
          intro i hi
          have hm := hmem i hi
          rcases List.mem_cons.mp hm with habs | hok
          · have : (0 : Int) ≤ (i : Int) := by positivity
            omega
          · exact hok
        have h1 := dailyRunBound xs (List.chain'_cons'.mp hchain).2 a (k' + 1)
          hall
        have h2 := longestRun_cons_ge dayConsec x xs
        omega

/-- An adjacency-chain for `dayConsec` starting at `a` consists of the
consecutive dates `a, a + 1, ...`. -/
lemma dayChain_mem :
    ∀ (p : List Int) (a : Int),
      List.Chain' (fun u v => dayConsec u v = true) (a :: p) →
      ∀ i : Nat, i < p.length + 1 → a + (i : Int) ∈ a :: p
  | [], a, _, i, hi => by
    have : i = 0 := by simpa using hi
    subst this
    simp
  | b :: p', a, hchain, i, hi => by
    have hb : b = a + 1 := by
      have := (List.chain'_cons.mp hchain).1
      simpa [dayConsec] using this
    cases i with
    | zero => simp
    | succ j =>
      have hj : j < p'.length + 1 := by simpa using hi
      have := dayChain_mem p' b (List.chain'_cons.mp hchain).2 j hj
      have heq : a + ((j + 1 : Nat) : Int) = b + (j : Int) := by
        subst hb
        push_cast
        omega
      rw [heq]
      exact List.mem_cons_of_mem a this

/-! ### Claims C2 and C3 -/

/-- C2: for a daily habit, `calculate_streak` is exactly the length of
the longest run of consecutive calendar days among the habit's (unique)
completion dates: the greatest `k` such that some `k` consecutive dates
`a, a + 1, ..., a + k - 1` all carry a completion.  This subsumes the
spec's list: 0 for an empty completion list, 1 for a single completion,
and the maximum adjacency-run length in general. -/
theorem c2_longest_daily (habit : Habit)
    (hp : strLower habit.periodicity = "daily") :
    IsGreatest {k : Nat | ∃ a : Int, ∀ i : Nat, i < k →
        ∃ u ∈ habit.completion_dates, Timestamp.date u = a + (i : Int)}
      (calculate_streak habit) := by
  have hbr : ∀ z : Int,
      (∃ u ∈ habit.completion_dates, Timestamp.date u = z) ↔
        z ∈ uniqueSortedDays (habit.completion_dates.map Timestamp.date) := by
    intro z
    rw [mem_uniqueSortedDays, List.mem_map]
  have hnw : strLower habit.periodicity ≠ "weekly" := by
    rw [hp]
    decide
  by_cases hdc : habit.completion_dates = []
  · have hcs : calculate_streak habit = 0 := by
      simp [calculate_streak, hdc]
    rw [hcs]
    constructor
    · exact ⟨0, fun i hi => absurd hi (by omega)⟩
    · rintro k ⟨a, hk⟩
      by_contra hk0
      obtain ⟨u, hu, _⟩ := hk 0 (by omega)
      rw [hdc] at hu
      exact absurd hu (List.not_mem_nil u)
  · have hne : habit.completion_dates.map Timestamp.date ≠ [] := by
      intro hmap
      exact hdc (List.map_eq_nil.mp hmap)
    have hlne :
        uniqueSortedDays (habit.completion_dates.map Timestamp.date) ≠ [] :=
      uniqueSortedDays_ne_nil hne
    have h1 : habit.completion_dates.isEmpty = false := by
      cases hq : habit.completion_dates
      · exact absurd hq hdc
      · rfl
    have h2 : (uniqueSortedDays
        (habit.completion_dates.map Timestamp.date)).isEmpty = false := by
      cases hq : uniqueSortedDays (habit.completion_dates.map Timestamp.date)
      · exact absurd hq hlne
      · rfl
    have hcs : calculate_streak habit = longestRun dayConsec
        (uniqueSortedDays (habit.completion_dates.map Timestamp.date)) := by
      simp [calculate_streak, longest_daily_streak, h1, h2, hnw]
    rw [hcs]
    constructor
    · obtain ⟨r, ⟨s, t, hst⟩, hchain, hlen⟩ := longestRun_achieved dayConsec
        (uniqueSortedDays (habit.completion_dates.map Timestamp.date))
      cases r with
      | nil =>
        rw [← hlen]
        exact ⟨0, fun i hi => absurd hi (by simp at hi ⊢)⟩
      | cons a p =>
        rw [← hlen]
        refine ⟨a, fun i hi => ?_⟩
        have hmem : a + (i : Int) ∈ a :: p :=
          dayChain_mem p a hchain i (by simpa using hi)
        refine (hbr (a + (i : Int))).mpr ?_
        rw [← hst]
        simp only [List.append_assoc, List.mem_append]
        exact Or.inr (Or.inl hmem)
    · rintro k ⟨a, hk⟩
      refine dailyRunBound _ (chain'_uniqueSortedDays _) a k ?_
      intro i hi
      exact (hbr (a + (i : Int))).mp (hk i hi)

theorem c2_witness :
    strLower "daily" = "daily" ∧
    IsGreatest {k : Nat | ∃ a : Int, ∀ i : Nat, i < k →
        ∃ u ∈ [(⟨1, 480⟩ : Timestamp), ⟨3, 480⟩, ⟨4, 480⟩, ⟨5, 480⟩],
          Timestamp.date u = a + (i : Int)}
      (calculate_streak ⟨4, "jog", "daily", ⟨1, 0⟩, none,
        [⟨1, 480⟩, ⟨3, 480⟩, ⟨4, 480⟩, ⟨5, 480⟩]⟩) :=
  ⟨by decide,
    c2_longest_daily
      ⟨4, "jog", "daily", ⟨1, 0⟩, none,
        [⟨1, 480⟩, ⟨3, 480⟩, ⟨4, 480⟩, ⟨5, 480⟩]⟩ (by decide)⟩

/-- The unique `(isoYear, isoWeek)` pairs of a habit's completions, in
ascending (lexicographic) order — the sequence §4.2 of the spec scans for
a weekly habit. -/
def isoWeekKeys (habit : Habit) : List (Int × Int) :=
  uniqueSortedPairs
    (habit.completion_dates.map (fun u => isocalendarYW (Timestamp.date u)))

lemma weekConsec_iff (a b : Int × Int) :
    weekConsec a b = true ↔
      ((b.1 = a.1 ∧ b.2 = a.2 + 1) ∨
        (b.1 = a.1 + 1 ∧ (a.2 = 52 ∨ a.2 = 53) ∧ b.2 = 1)) := by
  simp [weekConsec, Bool.or_eq_true, Bool.and_eq_true, decide_eq_true_eq,
    and_assoc]

/-- C3: for a weekly habit, `calculate_streak` is exactly the length of
the longest contiguous stretch of the ascending unique
`(isoYear, isoWeek)` sequence in which each adjacent pair is consecutive
in the stated sense: same ISO year with the week incremented, or the next
ISO year with the earlier week being 52 or 53 and the later week 1. -/
theorem c3_longest_weekly (habit : Habit)
    (hp : strLower habit.periodicity = "weekly") :
    IsGreatest {k : Nat | ∃ r : List (Int × Int),
        (∃ s t, s ++ r ++ t = isoWeekKeys habit) ∧
        List.Chain' (fun a b => (b.1 = a.1 ∧ b.2 = a.2 + 1) ∨
          (b.1 = a.1 + 1 ∧ (a.2 = 52 ∨ a.2 = 53) ∧ b.2 = 1)) r ∧
        r.length = k}
      (calculate_streak habit) := by
  by_cases hdc : habit.completion_dates = []
  · have hcs : calculate_streak habit = 0 := by
      simp [calculate_streak, hdc]
    have hkeys : isoWeekKeys habit = [] := by
      simp [isoWeekKeys, hdc, uniqueSortedPairs]
    rw [hcs]
    constructor
    · exact ⟨[], ⟨[], [], by simp [hkeys]⟩, List.chain'_nil, rfl⟩
    · rintro k ⟨r, ⟨s, t, hst⟩, _, hlen⟩
      rw [hkeys] at hst
      have : r = [] := by cases s <;> cases r <;> simp_all
      subst this
      simp at hlen
      omega
  · have hne : habit.completion_dates.map Timestamp.date ≠ [] := by
      intro hmap
      exact hdc (List.map_eq_nil.mp hmap)
    have hlne :
        uniqueSortedDays (habit.completion_dates.map Timestamp.date) ≠ [] :=
      uniqueSortedDays_ne_nil hne
    have h1 : habit.completion_dates.isEmpty = false := by
      cases hq : habit.completion_dates
      · exact absurd hq hdc
      · rfl
    have h2 : (uniqueSortedDays
        (habit.completion_dates.map Timestamp.date)).isEmpty = false := by
      cases hq : uniqueSortedDays (habit.completion_dates.map Timestamp.date)
      · exact absurd hq hlne
      · rfl
    have hkeys : uniqueSortedPairs
        ((uniqueSortedDays (habit.completion_dates.map Timestamp.date)).map
          isocalendarYW) = isoWeekKeys habit := by
      unfold isoWeekKeys
      apply uniqueSortedPairs_congr
      intro x
      constructor
      · intro hx
        obtain ⟨z, hz, rfl⟩ := List.mem_map.mp hx
        obtain ⟨u, hu, rfl⟩ := List.mem_map.mp (mem_uniqueSortedDays.mp hz)
        exact List.mem_map.mpr ⟨u, hu, rfl⟩
      · intro hx
        obtain ⟨u, hu, rfl⟩ := List.mem_map.mp hx
        exact List.mem_map.mpr
          ⟨Timestamp.date u,
            mem_uniqueSortedDays.mpr (List.mem_map.mpr ⟨u, hu, rfl⟩), rfl⟩
    have hcs : calculate_streak habit =
        longestRun weekConsec (isoWeekKeys habit) := by
      simp only [calculate_streak, longest_weekly_streak, h1, h2, hp,
        Bool.false_eq_true, if_false, if_true, hkeys]
    rw [hcs]
    constructor
    · obtain ⟨r, hinf, hchain, hlen⟩ :=
        longestRun_achieved weekConsec (isoWeekKeys habit)
      exact ⟨r, hinf,
        List.Chain'.imp (fun a b hab => (weekConsec_iff a b).mp hab) hchain,
        hlen⟩
    · rintro k ⟨r, ⟨s, t, hst⟩, hchainP, hlen⟩
      rw [← hlen]
      exact longestRun_ge_chain weekConsec s t hst
        (List.Chain'.imp (fun a b hab => (weekConsec_iff a b).mpr hab) hchainP)

theorem c3_witness :
    strLower "Weekly" = "weekly" ∧
    IsGreatest {k : Nat | ∃ r : List (Int × Int),
        (∃ s t, s ++ r ++ t = isoWeekKeys
          ⟨5, "swim", "Weekly", ⟨1, 0⟩, none,
            [⟨737780, 60⟩, ⟨737794, 60⟩]⟩) ∧
        List.Chain' (fun a b => (b.1 = a.1 ∧ b.2 = a.2 + 1) ∨
          (b.1 = a.1 + 1 ∧ (a.2 = 52 ∨ a.2 = 53) ∧ b.2 = 1)) r ∧
        r.length = k}
      (calculate_streak ⟨5, "swim", "Weekly", ⟨1, 0⟩, none,
        [⟨737780, 60⟩, ⟨737794, 60⟩]⟩) :=
  ⟨by decide,
    c3_longest_weekly
      ⟨5, "swim", "Weekly", ⟨1, 0⟩, none, [⟨737780, 60⟩, ⟨737794, 60⟩]⟩
      (by decide)⟩

/-! ### Claim C1: current daily streak -/

/-- The calendar dates (unique, ascending) of a habit's completions:
`uniqueSortedDates` of spec §4.1. -/
def uniqueDates (habit : Habit) : List Int :=
  uniqueSortedDays (habit.completion_dates.map Timestamp.date)

lemma iterate_subOne : ∀ (i : Nat) (e : Int),
    (fun x : Int => x - 1)^[i] e = e - (i : Int)
  | 0, e => by simp
  | i + 1, e => by
    rw [Function.iterate_succ_apply, iterate_subOne i (e - 1)]
    push_cast
    omega

/-- The backward daily walk from `e` computes the greatest `k` such that
`e, e - 1, ..., e - (k - 1)` all lie in `dates`. -/
lemma countBack_daily_isGreatest (dates : List Int) (e : Int) :
    IsGreatest {k : Nat | ∀ i : Nat, i < k → e - (i : Int) ∈ dates}
      (countBackFuel dates (· - 1) (dates.length + 1) e) := by
  have hd : ∀ i j : Nat, i < j → j ≤ dates.length →
      (fun x : Int => x - 1)^[i] e ≠ (fun x : Int => x - 1)^[j] e := by
    intro i j hij _
    rw [iterate_subOne, iterate_subOne]
    intro hc
    omega
  have hlt := countBackFuel_lt dates (· - 1) e hd
  constructor
  · intro i hi
    have := countBackFuel_mem dates (· - 1) (dates.length + 1) e i hi
    rwa [iterate_subOne] at this
  · intro k hk
    by_contra hgt
    have hnm := countBackFuel_not_mem dates (· - 1) (dates.length + 1) e hlt
    rw [iterate_subOne] at hnm
    exact hnm (hk _ (by omega))

/-- C1: for a daily habit and a supplied reference date `today`,
`calculate_current_streak` returns 0 on an empty completion list; when
`today` carries a completion it returns the length of the maximal run of
consecutive dates, within the habit's unique completion dates, ending at
`today`; otherwise, when `today - 1` carries one, the maximal run ending
at `today - 1`; otherwise 0. -/
theorem c1_current_daily (habit : Habit) (today : Int) (sys : Int)
    (hp : strLower habit.periodicity = "daily") :
    (habit.completion_dates = [] →
      calculate_current_streak habit (some today) sys = 0) ∧
    (today ∈ uniqueDates habit →
      IsGreatest {k : Nat | ∀ i : Nat, i < k →
          today - (i : Int) ∈ uniqueDates habit}
        (calculate_current_streak habit (some today) sys)) ∧
    (today ∉ uniqueDates habit → today - 1 ∈ uniqueDates habit →
      IsGreatest {k : Nat | ∀ i : Nat, i < k →
          (today - 1) - (i : Int) ∈ uniqueDates habit}
        (calculate_current_streak habit (some today) sys)) ∧
    (today ∉ uniqueDates habit → today - 1 ∉ uniqueDates habit →
      calculate_current_streak habit (some today) sys = 0) := by
  have hnw : strLower habit.periodicity ≠ "weekly" := by
    rw [hp]
    decide
  by_cases hdc : habit.completion_dates = []
  · have hl : uniqueDates habit = [] := by
      simp [uniqueDates, hdc, uniqueSortedDays]
    refine ⟨fun _ => by simp [calculate_current_streak, hdc], ?_, ?_, ?_⟩
    · intro ht
      rw [hl] at ht
      exact absurd ht (List.not_mem_nil today)
    · intro _ ht
      rw [hl] at ht
      exact absurd ht (List.not_mem_nil _)
    · intro _ _
      simp [calculate_current_streak, hdc]
  · have h1 : habit.completion_dates.isEmpty = false := by
      cases hq : habit.completion_dates
      · exact absurd hq hdc
      · rfl
    have hlne : uniqueDates habit ≠ [] := by
      apply uniqueSortedDays_ne_nil
      intro hmap
      exact hdc (List.map_eq_nil_iff.mp hmap)
    have h2 : (uniqueDates habit).isEmpty = false := by
      cases hq : uniqueDates habit
      · exact absurd hq hlne
      · rfl
    have hcs : calculate_current_streak habit (some today) sys =
        current_daily_streak (uniqueDates habit) today := by
      simp [calculate_current_streak, h1, hnw, uniqueDates]
    rw [hcs]
    refine ⟨fun hc => absurd hc hdc, ?_, ?_, ?_⟩
    · intro ht
      have : current_daily_streak (uniqueDates habit) today =
          countBackFuel (uniqueDates habit) (· - 1)
            ((uniqueDates habit).length + 1) today := by
        simp only [current_daily_streak, h2, Bool.false_eq_true, if_false,
          if_pos ht]
      rw [this]
      exact countBack_daily_isGreatest (uniqueDates habit) today
    · intro htn ht1
      have : current_daily_streak (uniqueDates habit) today =
          countBackFuel (uniqueDates habit) (· - 1)
            ((uniqueDates habit).length + 1) (today - 1) := by
        simp only [current_daily_streak, h2, Bool.false_eq_true, if_false,
          if_neg htn, if_pos ht1]
      rw [this]
      exact countBack_daily_isGreatest (uniqueDates habit) (today - 1)
    · intro htn ht1
      simp only [current_daily_streak, h2, Bool.false_eq_true, if_false,
        if_neg htn, if_neg ht1]

theorem c1_witness :
    strLower "daily" = "daily" ∧
    (((⟨6, "run", "daily", ⟨1, 0⟩, none,
          [⟨8, 30⟩, ⟨9, 30⟩, ⟨10, 30⟩]⟩ : Habit).completion_dates = [] →
      calculate_current_streak
        ⟨6, "run", "daily", ⟨1, 0⟩, none, [⟨8, 30⟩, ⟨9, 30⟩, ⟨10, 30⟩]⟩
        (some 10) 0 = 0) ∧
    ((10 : Int) ∈ uniqueDates
        ⟨6, "run", "daily", ⟨1, 0⟩, none, [⟨8, 30⟩, ⟨9, 30⟩, ⟨10, 30⟩]⟩ →
      IsGreatest {k : Nat | ∀ i : Nat, i < k →
          (10 : Int) - (i : Int) ∈ uniqueDates
            ⟨6, "run", "daily", ⟨1, 0⟩, none, [⟨8, 30⟩, ⟨9, 30⟩, ⟨10, 30⟩]⟩}
        (calculate_current_streak
          ⟨6, "run", "daily", ⟨1, 0⟩, none, [⟨8, 30⟩, ⟨9, 30⟩, ⟨10, 30⟩]⟩
          (some 10) 0)) ∧
    ((10 : Int) ∉ uniqueDates
        ⟨6, "run", "daily", ⟨1, 0⟩, none, [⟨8, 30⟩, ⟨9, 30⟩, ⟨10, 30⟩]⟩ →
      (10 : Int) - 1 ∈ uniqueDates
        ⟨6, "run", "daily", ⟨1, 0⟩, none, [⟨8, 30⟩, ⟨9, 30⟩, ⟨10, 30⟩]⟩ →
      IsGreatest {k : Nat | ∀ i : Nat, i < k →
          ((10 : Int) - 1) - (i : Int) ∈ uniqueDates
            ⟨6, "run", "daily", ⟨1, 0⟩, none, [⟨8, 30⟩, ⟨9, 30⟩, ⟨10, 30⟩]⟩}
        (calculate_current_streak
          ⟨6, "run", "daily", ⟨1, 0⟩, none, [⟨8, 30⟩, ⟨9, 30⟩, ⟨10, 30⟩]⟩
          (some 10) 0)) ∧
    ((10 : Int) ∉ uniqueDates
        ⟨6, "run", "daily", ⟨1, 0⟩, none, [⟨8, 30⟩, ⟨9, 30⟩, ⟨10, 30⟩]⟩ →
      (10 : Int) - 1 ∉ uniqueDates
        ⟨6, "run", "daily", ⟨1, 0⟩, none, [⟨8, 30⟩, ⟨9, 30⟩, ⟨10, 30⟩]⟩ →
      calculate_current_streak
        ⟨6, "run", "daily", ⟨1, 0⟩, none, [⟨8, 30⟩, ⟨9, 30⟩, ⟨10, 30⟩]⟩
        (some 10) 0 = 0)) :=
  ⟨by decide,
    c1_current_daily
      ⟨6, "run", "daily", ⟨1, 0⟩, none, [⟨8, 30⟩, ⟨9, 30⟩, ⟨10, 30⟩]⟩
      10 0 (by decide)⟩

/-! ### Calendar arithmetic: correctness of the ISO week computations

These lemmas verify, over the shallow embedding of CPython's calendar
routines, the facts the weekly streak analysis rests on: the year
computed by `yearOfOrdinal` is the one whose January 1 bounds the
ordinal, ISO week numbers stay in `[1, 53]`, and `prevIsoWeek` really
is the immediate predecessor (its Monday is seven days earlier, and the
two keys are consecutive in the sense of the weekly scan). -/

lemma jan1_grow {a b : Int} (h : a < b) :
    jan1Ordinal a + 365 ≤ jan1Ordinal b := by
  unfold jan1Ordinal
  omega

lemma jan1_of_digits {y a b c d : Int}
    (hy : y = 400 * a + 100 * b + 4 * c + d + 1)
    (hb0 : 0 ≤ b) (hb3 : b ≤ 3) (hc0 : 0 ≤ c) (hc24 : c ≤ 24)
    (hd0 : 0 ≤ d) (hd3 : d ≤ 3) :
    jan1Ordinal y = 146097 * a + 36524 * b + 1461 * c + 365 * d + 1 := by
  subst hy
  unfold jan1Ordinal
  omega

set_option maxHeartbeats 1000000 in
/-- The year computed by CPython's `_ord2ymd` divmod chain is exactly the
year whose January 1 is the last one at or before the ordinal. -/
lemma yearOfOrdinal_spec (o : Int) :
    jan1Ordinal (yearOfOrdinal o) ≤ o ∧
      o < jan1Ordinal (yearOfOrdinal o + 1) := by
  have hyv : yearOfOrdinal o =
      if (o - 1) % 146097 % 36524 % 1461 / 365 = 4 ∨
          (o - 1) % 146097 / 36524 = 4
      then 400 * ((o - 1) / 146097) + 100 * ((o - 1) % 146097 / 36524) +
        4 * ((o - 1) % 146097 % 36524 / 1461) +
        (o - 1) % 146097 % 36524 % 1461 / 365
      else 400 * ((o - 1) / 146097) + 100 * ((o - 1) % 146097 / 36524) +
        4 * ((o - 1) % 146097 % 36524 / 1461) +
        (o - 1) % 146097 % 36524 % 1461 / 365 + 1 := by
    unfold yearOfOrdinal
    dsimp only
    split
    · omega
    · omega
  set n400 := (o - 1) / 146097 with h400
  set r400 := (o - 1) % 146097 with hr400
  set n100 := r400 / 36524 with h100
  set r100 := r400 % 36524 with hr100
  set n4 := r100 / 1461 with h4
  set r4 := r100 % 1461 with hr4
  set n1 := r4 / 365 with h1
  have f0 : o - 1 = 146097 * n400 + r400 ∧ 0 ≤ r400 ∧ r400 < 146097 := by
    omega
  have f1 : r400 = 36524 * n100 + r100 ∧ 0 ≤ r100 ∧ r100 < 36524 := by omega
  have f2 : r100 = 1461 * n4 + r4 ∧ 0 ≤ r4 ∧ r4 < 1461 := by omega
  have f3 : 365 * n1 ≤ r4 ∧ r4 < 365 * (n1 + 1) ∧ 0 ≤ n1 ∧ n1 ≤ 4 := by omega
  have f4 : 0 ≤ n100 ∧ n100 ≤ 4 ∧ 0 ≤ n4 ∧ n4 ≤ 24 := by omega
  by_cases hA : n1 = 4
  · have hda : r4 = 1460 := by omega
    have hd4 : n4 ≤ 23 := by omega
    have hd100 : n100 ≤ 3 := by omega
    have hy : yearOfOrdinal o = 400 * n400 + 100 * n100 + 4 * n4 + 4 := by
      rw [hyv, if_pos (Or.inl hA)]
      omega
    have hj1 : jan1Ordinal (yearOfOrdinal o) =
        146097 * n400 + 36524 * n100 + 1461 * n4 + 365 * 3 + 1 :=
      jan1_of_digits (by omega) (by omega) (by omega) (by omega) (by omega)
        (by omega) (by omega)
    have hj2 : jan1Ordinal (yearOfOrdinal o + 1) =
        146097 * n400 + 36524 * n100 + 1461 * (n4 + 1) + 365 * 0 + 1 :=
      jan1_of_digits (by omega) (by omega) (by omega) (by omega) (by omega)
        (by omega) (by omega)
    omega
  · by_cases hB : n100 = 4
    · have hz : r400 = 146096 ∧ r100 = 0 ∧ n4 = 0 ∧ r4 = 0 ∧ n1 = 0 := by
        omega
      have hy : yearOfOrdinal o = 400 * n400 + 400 := by
        rw [hyv, if_pos (Or.inr hB)]
        omega
      have hj1 : jan1Ordinal (yearOfOrdinal o) =
          146097 * n400 + 36524 * 3 + 1461 * 24 + 365 * 3 + 1 :=
        jan1_of_digits (by omega) (by omega) (by omega) (by omega) (by omega)
          (by omega) (by omega)
      have hj2 : jan1Ordinal (yearOfOrdinal o + 1) =
          146097 * (n400 + 1) + 36524 * 0 + 1461 * 0 + 365 * 0 + 1 :=
        jan1_of_digits (by omega) (by omega) (by omega) (by omega) (by omega)
          (by omega) (by omega)
      omega
    · have hy : yearOfOrdinal o =
          400 * n400 + 100 * n100 + 4 * n4 + n1 + 1 := by
        rw [hyv, if_neg (by tauto)]
      have hn1 : n1 ≤ 3 := by omega
      have hn100 : n100 ≤ 3 := by omega
      have hj1 : jan1Ordinal (yearOfOrdinal o) =
          146097 * n400 + 36524 * n100 + 1461 * n4 + 365 * n1 + 1 :=
        jan1_of_digits (by omega) (by omega) (by omega) (by omega) (by omega)
          (by omega) (by omega)
      by_cases hc1 : n1 ≤ 2
      · have hj2 : jan1Ordinal (yearOfOrdinal o + 1) =
            146097 * n400 + 36524 * n100 + 1461 * n4 + 365 * (n1 + 1) + 1 :=
          jan1_of_digits (by omega) (by omega) (by omega) (by omega)
            (by omega) (by omega) (by omega)
        omega
      · have hc1e : n1 = 3 := by omega
        by_cases hc4 : n4 ≤ 23
        · have hj2 : jan1Ordinal (yearOfOrdinal o + 1) =
              146097 * n400 + 36524 * n100 + 1461 * (n4 + 1) + 365 * 0 + 1 :=
            jan1_of_digits (by omega) (by omega) (by omega) (by omega)
              (by omega) (by omega) (by omega)
          omega
        · have hc4e : n4 = 24 := by omega
          have hr4b : r4 ≤ 1459 := by omega
          by_cases hc100 : n100 ≤ 2
          · have hj2 : jan1Ordinal (yearOfOrdinal o + 1) =
                146097 * n400 + 36524 * (n100 + 1) + 1461 * 0 + 365 * 0 + 1 :=
              jan1_of_digits (by omega) (by omega) (by omega) (by omega)
                (by omega) (by omega) (by omega)
            omega
          · have hc100e : n100 = 3 := by omega
            have hj2 : jan1Ordinal (yearOfOrdinal o + 1) =
                146097 * (n400 + 1) + 36524 * 0 + 1461 * 0 + 365 * 0 + 1 :=
              jan1_of_digits (by omega) (by omega) (by omega) (by omega)
                (by omega) (by omega) (by omega)
            omega

lemma isoWeek1Monday_mod (y : Int) : isoWeek1Monday y % 7 = 1 := by
  unfold isoWeek1Monday
  dsimp only
  split <;> omega

lemma isoWeek1Monday_near (y : Int) :
    jan1Ordinal y - 3 ≤ isoWeek1Monday y ∧
      isoWeek1Monday y ≤ jan1Ordinal y + 3 := by
  unfold isoWeek1Monday
  dsimp only
  split <;> omega

lemma isoWeek1Monday_succ (y : Int) :
    isoWeek1Monday (y + 1) - isoWeek1Monday y = 364 ∨
      isoWeek1Monday (y + 1) - isoWeek1Monday y = 371 := by
  have a1 : jan1Ordinal (y + 1) - jan1Ordinal y ≤ 366 := by
    unfold jan1Ordinal
    omega
  have a2 : jan1Ordinal y + 365 ≤ jan1Ordinal (y + 1) := jan1_grow (by omega)
  have b1 := isoWeek1Monday_mod y
  have b2 := isoWeek1Monday_mod (y + 1)
  have c1 := isoWeek1Monday_near y
  have c2 := isoWeek1Monday_near (y + 1)
  omega

lemma isoWeek1Monday_grow {a b : Int} (h : a < b) :
    isoWeek1Monday a + 359 ≤ isoWeek1Monday b := by
  have c1 := isoWeek1Monday_near a
  have c2 := isoWeek1Monday_near b
  have := jan1_grow h
  omega

/-- Soundness of `isocalendarYW`: the computed ISO year's week-1 Monday
bounds the ordinal, and the week is its seven-day offset index. -/
lemma isocalendarYW_spec (o : Int) :
    isoWeek1Monday (isocalendarYW o).1 ≤ o ∧
      o < isoWeek1Monday ((isocalendarYW o).1 + 1) ∧
      (isocalendarYW o).2 =
        (o - isoWeek1Monday (isocalendarYW o).1) / 7 + 1 := by
  have h5 := yearOfOrdinal_spec o
  unfold isocalendarYW
  dsimp only
  split
  · next hb1 =>
    dsimp only
    have c1 := isoWeek1Monday_near (yearOfOrdinal o - 1)
    have c2 := isoWeek1Monday_near (yearOfOrdinal o)
    have hg : jan1Ordinal (yearOfOrdinal o - 1) + 365 ≤
        jan1Ordinal (yearOfOrdinal o) := jan1_grow (by omega)
    have harg : yearOfOrdinal o - 1 + 1 = yearOfOrdinal o := by ring
    refine ⟨by omega, ?_, rfl⟩
    rw [harg]
    omega
  · next hb1 =>
    split
    · next hb2 =>
      dsimp only
      have c1 := isoWeek1Monday_near (yearOfOrdinal o + 1)
      have c2 := isoWeek1Monday_near (yearOfOrdinal o + 1 + 1)
      have hg : jan1Ordinal (yearOfOrdinal o + 1) + 365 ≤
          jan1Ordinal (yearOfOrdinal o + 1 + 1) := jan1_grow (by omega)
      refine ⟨hb2.2, by omega, ?_⟩
      have : (o - isoWeek1Monday (yearOfOrdinal o + 1)) / 7 = 0 := by omega
      omega
    · next hb2 =>
      dsimp only
      have hsucc := isoWeek1Monday_succ (yearOfOrdinal o)
      refine ⟨by omega, ?_, rfl⟩
      by_contra hcon
      exact hb2 ⟨by omega, by omega⟩

/-- Uniqueness: an ordinal lying between the week-1 Mondays of ISO years
`y` and `y + 1` has ISO key `(y, offset / 7 + 1)`. -/
lemma isocalendarYW_of_bounds {o y : Int} (h1 : isoWeek1Monday y ≤ o)
    (h2 : o < isoWeek1Monday (y + 1)) :
    isocalendarYW o = (y, (o - isoWeek1Monday y) / 7 + 1) := by
  obtain ⟨s1, s2, s3⟩ := isocalendarYW_spec o
  have hy : (isocalendarYW o).1 = y := by
    rcases lt_trichotomy (isocalendarYW o).1 y with h | h | h
    · exfalso
      rcases eq_or_lt_of_le (by omega : (isocalendarYW o).1 + 1 ≤ y) with
        he | hlt
      · rw [he] at s2
        omega
      · have := isoWeek1Monday_grow hlt
        omega
    · exact h
    · exfalso
      rcases eq_or_lt_of_le (by omega : y + 1 ≤ (isocalendarYW o).1) with
        he | hlt
      · rw [he] at h2
        omega
      · have := isoWeek1Monday_grow hlt
        omega
  have hw : (isocalendarYW o).2 = (o - isoWeek1Monday y) / 7 + 1 := by
    rw [s3, hy]
  exact Prod.ext_iff.mpr ⟨hy, hw⟩

/-- Every ISO week number produced by `isocalendarYW` lies in `[1, 53]`. -/
lemma isocalendarYW_week_bounds (o : Int) :
    1 ≤ (isocalendarYW o).2 ∧ (isocalendarYW o).2 ≤ 53 := by
  obtain ⟨s1, s2, s3⟩ := isocalendarYW_spec o
  have hsucc := isoWeek1Monday_succ (isocalendarYW o).1
  constructor
  · rw [s3]
    omega
  · rw [s3]
    omega

/-- Function `_prev_iso_week` really steps to the immediately preceding ISO week:
its Monday is seven days earlier, and the weekly scan's adjacency test
accepts the pair. -/
lemma prevIsoWeek_spec (o : Int) :
    weekConsec (prevIsoWeek (isocalendarYW o)) (isocalendarYW o) = true ∧
      fromIsoMonday (prevIsoWeek (isocalendarYW o)).1
          (prevIsoWeek (isocalendarYW o)).2 =
        fromIsoMonday (isocalendarYW o).1 (isocalendarYW o).2 - 7 := by
  obtain ⟨s1, s2, s3⟩ := isocalendarYW_spec o
  obtain ⟨v1, v2⟩ := isocalendarYW_week_bounds o
  by_cases hW2 : 2 ≤ (isocalendarYW o).2
  · have hm1 : isoWeek1Monday (isocalendarYW o).1 ≤
        fromIsoMonday (isocalendarYW o).1 (isocalendarYW o).2 - 7 := by
      unfold fromIsoMonday
      omega
    have hm2 : fromIsoMonday (isocalendarYW o).1 (isocalendarYW o).2 - 7 <
        isoWeek1Monday ((isocalendarYW o).1 + 1) := by
      unfold fromIsoMonday
      omega
    have hkey := isocalendarYW_of_bounds hm1 hm2
    have hdiv : (fromIsoMonday (isocalendarYW o).1 (isocalendarYW o).2 - 7 -
        isoWeek1Monday (isocalendarYW o).1) / 7 + 1 =
        (isocalendarYW o).2 - 1 := by
      unfold fromIsoMonday
      omega
    have hprev : prevIsoWeek (isocalendarYW o) =
        ((isocalendarYW o).1, (isocalendarYW o).2 - 1) := by
      unfold prevIsoWeek
      rw [hkey, hdiv]
    rw [hprev]
    dsimp only
    constructor
    · rw [weekConsec_iff]
      exact Or.inl ⟨rfl, by omega⟩
    · unfold fromIsoMonday
      omega
  · have hW1 : (isocalendarYW o).2 = 1 := by omega
    have hsucc := isoWeek1Monday_succ ((isocalendarYW o).1 - 1)
    have harg : (isocalendarYW o).1 - 1 + 1 = (isocalendarYW o).1 := by ring
    rw [harg] at hsucc
    have hm1 : isoWeek1Monday ((isocalendarYW o).1 - 1) ≤
        fromIsoMonday (isocalendarYW o).1 (isocalendarYW o).2 - 7 := by
      unfold fromIsoMonday
      omega
    have hm2 : fromIsoMonday (isocalendarYW o).1 (isocalendarYW o).2 - 7 <
        isoWeek1Monday ((isocalendarYW o).1 - 1 + 1) := by
      rw [harg]
      unfold fromIsoMonday
      omega
    have hkey := isocalendarYW_of_bounds hm1 hm2
    have hprev : prevIsoWeek (isocalendarYW o) =
        ((isocalendarYW o).1 - 1,
          (fromIsoMonday (isocalendarYW o).1 (isocalendarYW o).2 - 7 -
            isoWeek1Monday ((isocalendarYW o).1 - 1)) / 7 + 1) := by
      unfold prevIsoWeek
      rw [hkey]
    have hKval : (fromIsoMonday (isocalendarYW o).1 (isocalendarYW o).2 - 7 -
        isoWeek1Monday ((isocalendarYW o).1 - 1)) / 7 + 1 = 52 ∨
        (fromIsoMonday (isocalendarYW o).1 (isocalendarYW o).2 - 7 -
          isoWeek1Monday ((isocalendarYW o).1 - 1)) / 7 + 1 = 53 := by
      unfold fromIsoMonday
      omega
    rw [hprev]
    dsimp only
    constructor
    · rw [weekConsec_iff]
      refine Or.inr ⟨by omega, by omega, by omega⟩
    · unfold fromIsoMonday
      have hmod1 := isoWeek1Monday_mod ((isocalendarYW o).1 - 1)
      have hmod2 := isoWeek1Monday_mod (isocalendarYW o).1
      omega

/-! ### The weekly backward walk -/

/-- Iterating `_prev_iso_week` from a key produced by `isocalendar` stays
inside the image of `isocalendar`, and each step moves the week's Monday
back by exactly seven days. -/
lemma walk_monday (w : Int × Int) (hw : ∃ o, isocalendarYW o = w) :
    ∀ i : Nat, (∃ o, isocalendarYW o = prevIsoWeek^[i] w) ∧
      fromIsoMonday (prevIsoWeek^[i] w).1 (prevIsoWeek^[i] w).2 =
        fromIsoMonday w.1 w.2 - 7 * (i : Int)
  | 0 => ⟨hw, by simp⟩
  | i + 1 => by
    obtain ⟨himg, hm⟩ := walk_monday w hw i
    obtain ⟨o', ho'⟩ := himg
    constructor
    · refine ⟨fromIsoMonday (prevIsoWeek^[i] w).1 (prevIsoWeek^[i] w).2 - 7,
        ?_⟩
      rw [Function.iterate_succ_apply', ← ho']
      rfl
    · rw [Function.iterate_succ_apply', ← ho', (prevIsoWeek_spec o').2, ho',
        hm]
      push_cast
      ring

/-- The weekly while loop never exhausts its fuel: the visited keys have
strictly decreasing Mondays, hence are pairwise distinct. -/
lemma weekly_countBack_lt (keys : List (Int × Int)) (w : Int × Int)
    (hw : ∃ o, isocalendarYW o = w) :
    countBackFuel keys prevIsoWeek (keys.length + 1) w < keys.length + 1 := by
  apply countBackFuel_lt
  intro i j hij _ hEq
  have hi := (walk_monday w hw i).2
  have hj := (walk_monday w hw j).2
  rw [hEq] at hi
  omega

/-- The list `[prevIsoWeek^[n-1] w, ..., prevIsoWeek w, w]` of the keys a
backward walk of length `n` visits, oldest first. -/
def walkList (w : Int × Int) : Nat → List (Int × Int)
  | 0 => []
  | n + 1 => prevIsoWeek^[n] w :: walkList w n

lemma walkList_length (w : Int × Int) : ∀ n, (walkList w n).length = n
  | 0 => rfl
  | n + 1 => by simp [walkList, walkList_length w n]

lemma walkList_mem (w : Int × Int) :
    ∀ n z, z ∈ walkList w n → ∃ i : Nat, i < n ∧ z = prevIsoWeek^[i] w
  | 0, z, hz => absurd hz (List.not_mem_nil z)
  | n + 1, z, hz => by
    rcases List.mem_cons.mp hz with rfl | hz2
    · exact ⟨n, by omega, rfl⟩
    · obtain ⟨i, hi, rfl⟩ := walkList_mem w n z hz2
      exact ⟨i, by omega, rfl⟩

lemma walkList_chain (w : Int × Int) (hw : ∃ o, isocalendarYW o = w) :
    ∀ n, List.Chain' (fun a b => weekConsec a b = true) (walkList w n)
  | 0 => List.chain'_nil
  | 1 => by
    simp only [walkList, Function.iterate_zero_apply]
    exact List.chain'_singleton w
  | n + 2 => by
    have hprev : walkList w (n + 2) =
        prevIsoWeek^[n + 1] w :: prevIsoWeek^[n] w :: walkList w n := rfl
    rw [hprev, List.chain'_cons]
    obtain ⟨o', ho'⟩ := (walk_monday w hw n).1
    constructor
    · rw [Function.iterate_succ_apply', ← ho']
      exact (prevIsoWeek_spec o').1
    · exact walkList_chain w hw (n + 1)

/-! ### Weekly chains inside the sorted key list bound the scan -/

lemma weekConsec_pairLt {a b : Int × Int} (h : weekConsec a b = true) :
    pairLt a b := by
  rw [weekConsec_iff] at h
  unfold pairLt
  omega

lemma chainPairLt_mem_gt {x : Int × Int} :
    ∀ {xs : List (Int × Int)}, List.Chain' pairLt (x :: xs) →
      ∀ z ∈ xs, pairLt x z
  | [], _, z, hz => absurd hz (List.not_mem_nil z)
  | y :: ys, h, z, hz => by
    have hxy : pairLt x y := (List.chain'_cons.mp h).1
    rcases List.mem_cons.mp hz with rfl | hz2
    · exact hxy
    · exact pairLt_trans hxy
        (chainPairLt_mem_gt (List.chain'_cons.mp h).2 z hz2)

lemma chainWeek_mem_gt {x : Int × Int} :
    ∀ {xs : List (Int × Int)},
      List.Chain' (fun a b => weekConsec a b = true) (x :: xs) →
      ∀ z ∈ xs, pairLt x z
  | [], _, z, hz => absurd hz (List.not_mem_nil z)
  | y :: ys, h, z, hz => by
    have hxy : pairLt x y := weekConsec_pairLt (List.chain'_cons.mp h).1
    rcases List.mem_cons.mp hz with rfl | hz2
    · exact hxy
    · exact pairLt_trans hxy
        (chainWeek_mem_gt (List.chain'_cons.mp h).2 z hz2)

/-- A `weekConsec`-chain hanging off `prev`, whose later elements all lie
in the (sorted, valid) remaining input, extends the running count. -/
lemma weeklyRunAux_bound :
    ∀ (rest : List (Int × Int)) (prev : Int × Int) (current longest : Nat),
      current ≤ longest → List.Chain' pairLt (prev :: rest) →
      (∀ z ∈ rest, 1 ≤ z.2 ∧ z.2 ≤ 53) →
      ∀ r : List (Int × Int),
        List.Chain' (fun a b => weekConsec a b = true) (prev :: r) →
        (∀ z ∈ r, z ∈ rest) →
        current + r.length ≤ longestRunAux weekConsec prev rest current longest := by
  intro rest
  induction rest with
  | nil =>
    intro prev current longest hcl _ _ r hchain hmem
    have hr : r = [] := by
      cases r with
      | nil => rfl
      | cons b r' =>
        exact absurd (hmem b (List.mem_cons_self b r')) (List.not_mem_nil b)
    subst hr
    simpa [longestRunAux] using hcl
  | cons y ys ih =>
    intro prev current longest hcl hsort hval r hchain hmem
    cases r with
    | nil =>
      have := longestRunAux_ge weekConsec (y :: ys) prev current longest
      simpa using le_trans hcl this
    | cons b r' =>
      have hb : b ∈ y :: ys := hmem b (List.mem_cons_self b r')
      have hconsec : weekConsec prev b = true := (List.chain'_cons.mp hchain).1
      have hchain' : List.Chain' (fun a b => weekConsec a b = true) (b :: r') :=
        (List.chain'_cons.mp hchain).2
      have hprevy : pairLt prev y := (List.chain'_cons.mp hsort).1
      rcases List.mem_cons.mp hb with rfl | hbys
      · simp only [longestRunAux, hconsec, if_true]
        have helems : ∀ z ∈ r', z ∈ ys := by
          intro z hz
          have hz2 : z ∈ b :: ys := hmem z (List.mem_cons_of_mem b hz)
          have hbz : pairLt b z := chainWeek_mem_gt hchain' z hz
          rcases List.mem_cons.mp hz2 with rfl | hok
          · exact absurd hbz (pairLt_irrefl z)
          · exact hok
        have := ih b (current + 1) (max longest (current + 1))
          (le_max_right _ _) (List.chain'_cons'.mp hsort).2
          (fun z hz => hval z (List.mem_cons_of_mem b hz)) r' hchain' helems
        simp only [List.length_cons]
        omega
      · have hyb : pairLt y b :=
          chainPairLt_mem_gt (List.chain'_cons'.mp hsort).2 b hbys
        have hcP := (weekConsec_iff prev b).mp hconsec
        rcases hcP with ⟨h1, h2⟩ | ⟨h1, h2, h3⟩
        · exfalso
          unfold pairLt at hprevy hyb
          omega
        · have hvy : 1 ≤ y.2 ∧ y.2 ≤ 53 := hval y (List.mem_cons_self y ys)
          have hy53 : y.1 = prev.1 ∧ y.2 = 53 ∧ prev.2 = 52 := by
            unfold pairLt at hprevy hyb
            omega
          have hcy : weekConsec prev y = true := by
            rw [weekConsec_iff]
            exact Or.inl ⟨hy53.1, by omega⟩
          simp only [longestRunAux, hcy, if_true]
          have hchainy :
              List.Chain' (fun a b => weekConsec a b = true) (y :: b :: r') := by
            rw [List.chain'_cons]
            refine ⟨?_, hchain'⟩
            rw [weekConsec_iff]
            exact Or.inr ⟨by omega, by omega, by omega⟩
          have helems : ∀ z ∈ b :: r', z ∈ ys := by
            intro z hz
            rcases List.mem_cons.mp hz with rfl | hz2
            · exact hbys
            · have hz3 : z ∈ y :: ys := hmem z (List.mem_cons_of_mem b hz2)
              have hbz : pairLt b z := chainWeek_mem_gt hchain' z hz2
              have hyz : pairLt y z := pairLt_trans hyb hbz
              rcases List.mem_cons.mp hz3 with rfl | hok
              · exact absurd hyz (pairLt_irrefl z)
              · exact hok
          have := ih y (current + 1) (max longest (current + 1))
            (le_max_right _ _) (List.chain'_cons'.mp hsort).2
            (fun z hz => hval z (List.mem_cons_of_mem y hz)) (b :: r')
            hchainy helems
          simp only [List.length_cons] at this ⊢
          omega

/-- As `weeklyRunAux_bound`, but for a chain not anchored at `prev`. -/
lemma weeklyRunAux_bound_loose :
    ∀ (rest : List (Int × Int)) (prev : Int × Int) (current longest : Nat),
      1 ≤ current → current ≤ longest → List.Chain' pairLt (prev :: rest) →
      (∀ z ∈ rest, 1 ≤ z.2 ∧ z.2 ≤ 53) →
      ∀ r : List (Int × Int),
        List.Chain' (fun a b => weekConsec a b = true) r →
        (∀ z ∈ r, z ∈ rest) →
        r.length ≤ longestRunAux weekConsec prev rest current longest := by
  intro rest
  induction rest with
  | nil =>
    intro prev current longest _ hcl _ _ r _ hmem
    have hr : r = [] := by
      cases r with
      | nil => rfl
      | cons b r' =>
        exact absurd (hmem b (List.mem_cons_self b r')) (List.not_mem_nil b)
    subst hr
    simp [longestRunAux]
  | cons y ys ih =>
    intro prev current longest h1c hcl hsort hval r hchain hmem
    cases r with
    | nil => simp
    | cons b r' =>
      have hb : b ∈ y :: ys := hmem b (List.mem_cons_self b r')
      have helemys : b ∈ ys → ∀ z ∈ b :: r', z ∈ ys := by
        intro hbys z hz
        rcases List.mem_cons.mp hz with rfl | hz2
        · exact hbys
        · have hz3 : z ∈ y :: ys := hmem z (List.mem_cons_of_mem b hz2)
          have hbz : pairLt b z := chainWeek_mem_gt hchain z hz2
          have hyb : pairLt y b :=
            chainPairLt_mem_gt (List.chain'_cons'.mp hsort).2 b hbys
          have hyz : pairLt y z := pairLt_trans hyb hbz
          rcases List.mem_cons.mp hz3 with rfl | hok
          · exact absurd hyz (pairLt_irrefl z)
          · exact hok
      rcases List.mem_cons.mp hb with rfl | hbys
      · have helems : ∀ z ∈ r', z ∈ ys := by
          intro z hz
          have hz2 : z ∈ b :: ys := hmem z (List.mem_cons_of_mem b hz)
          have hbz : pairLt b z := chainWeek_mem_gt hchain z hz
          rcases List.mem_cons.mp hz2 with rfl | hok
          · exact absurd hbz (pairLt_irrefl z)
          · exact hok
        cases hc : weekConsec prev b with
        | true =>
          simp only [longestRunAux, hc, if_true]
          have := weeklyRunAux_bound ys b (current + 1)
            (max longest (current + 1)) (le_max_right _ _)
            (List.chain'_cons'.mp hsort).2
            (fun z hz => hval z (List.mem_cons_of_mem b hz)) r' hchain helems
          simp only [List.length_cons]
          omega
        | false =>
          simp only [longestRunAux, hc, if_false, Bool.false_eq_true]
          have := weeklyRunAux_bound ys b 1 longest (le_trans h1c hcl)
            (List.chain'_cons'.mp hsort).2
            (fun z hz => hval z (List.mem_cons_of_mem b hz)) r' hchain helems
          simp only [List.length_cons]
          omega
      · cases hc : weekConsec prev y with
        | true =>
          simp only [longestRunAux, hc, if_true]
          exact ih y (current + 1) (max longest (current + 1)) (by omega)
            (le_max_right _ _) (List.chain'_cons'.mp hsort).2
            (fun z hz => hval z (List.mem_cons_of_mem y hz)) (b :: r') hchain
            (helemys hbys)
        | false =>
          simp only [longestRunAux, hc, if_false, Bool.false_eq_true]
          exact ih y 1 longest (le_refl 1) (le_trans h1c hcl)
            (List.chain'_cons'.mp hsort).2
            (fun z hz => hval z (List.mem_cons_of_mem y hz)) (b :: r') hchain
            (helemys hbys)

/-- Any `weekConsec`-chain whose members all belong to the sorted list of
valid ISO keys is no longer than the weekly scan result. -/
lemma weeklyRunBound (l : List (Int × Int)) (hsort : List.Chain' pairLt l)
    (hval : ∀ z ∈ l, 1 ≤ z.2 ∧ z.2 ≤ 53) (r : List (Int × Int))
    (hchain : List.Chain' (fun a b => weekConsec a b = true) r)
    (hmem : ∀ z ∈ r, z ∈ l) :
    r.length ≤ longestRun weekConsec l := by
  cases r with
  | nil => simp
  | cons b r' =>
    have hb : b ∈ l := hmem b (List.mem_cons_self b r')
    cases l with
    | nil => exact absurd hb (List.not_mem_nil b)
    | cons x xs =>
      simp only [longestRun]
      rcases List.mem_cons.mp hb with rfl | hbxs
      · have helems : ∀ z ∈ r', z ∈ xs := by
          intro z hz
          have hz2 : z ∈ b :: xs := hmem z (List.mem_cons_of_mem b hz)
          have hbz : pairLt b z := chainWeek_mem_gt hchain z hz
          rcases List.mem_cons.mp hz2 with rfl | hok
          · exact absurd hbz (pairLt_irrefl z)
          · exact hok
        have := weeklyRunAux_bound xs b 1 1 (le_refl 1) hsort
          (fun z hz => hval z (List.mem_cons_of_mem b hz)) r' hchain helems
        simp only [List.length_cons]
        omega
      · have helems : ∀ z ∈ b :: r', z ∈ xs := by
          intro z hz
          rcases List.mem_cons.mp hz with rfl | hz2
          · exact hbxs
          · have hz3 : z ∈ x :: xs := hmem z (List.mem_cons_of_mem b hz2)
            have hbz : pairLt b z := chainWeek_mem_gt hchain z hz2
            have hxb : pairLt x b := chainPairLt_mem_gt hsort b hbxs
            have hxz : pairLt x z := pairLt_trans hxb hbz
            rcases List.mem_cons.mp hz3 with rfl | hok
            · exact absurd hxz (pairLt_irrefl z)
            · exact hok
        exact weeklyRunAux_bound_loose xs x 1 1 (le_refl 1) (le_refl 1) hsort
          (fun z hz => hval z (List.mem_cons_of_mem x hz)) (b :: r') hchain
          helems

/-! ### Claim C5: current streak never exceeds longest streak -/

lemma countBack_le_longest (L : List Int) (hch : List.Chain' (· < ·) L)
    (e : Int) :
    countBackFuel L (· - 1) (L.length + 1) e ≤ longestRun dayConsec L := by
  rcases Nat.eq_zero_or_pos (countBackFuel L (· - 1) (L.length + 1) e) with
    h0 | hpos
  · rw [h0]
    exact Nat.zero_le _
  · have hmem := (countBack_daily_isGreatest L e).1
    apply dailyRunBound L hch
      (e - ((countBackFuel L (· - 1) (L.length + 1) e : Int) - 1))
    intro i hi
    have hm := hmem (countBackFuel L (· - 1) (L.length + 1) e - 1 - i)
      (by omega)
    have heq : e - ((countBackFuel L (· - 1) (L.length + 1) e - 1 - i :
        Nat) : Int) =
        e - ((countBackFuel L (· - 1) (L.length + 1) e : Int) - 1) +
          (i : Int) := by
      omega
    rwa [heq] at hm

lemma countBackW_le_longest (dates : List Int) (w : Int × Int)
    (hw : ∃ o, isocalendarYW o = w) :
    countBackFuel (dates.map isocalendarYW) prevIsoWeek
        ((dates.map isocalendarYW).length + 1) w ≤
      longestRun weekConsec (uniqueSortedPairs (dates.map isocalendarYW)) := by
  have hmem := countBackFuel_mem (dates.map isocalendarYW) prevIsoWeek
    ((dates.map isocalendarYW).length + 1) w
  rw [← walkList_length w (countBackFuel (dates.map isocalendarYW) prevIsoWeek
    ((dates.map isocalendarYW).length + 1) w)]
  apply weeklyRunBound (uniqueSortedPairs (dates.map isocalendarYW))
    (chain'_uniqueSortedPairs _) ?_ _ (walkList_chain w hw _) ?_
  · intro z hz
    obtain ⟨d, _, rfl⟩ := List.mem_map.mp (mem_uniqueSortedPairs.mp hz)
    exact isocalendarYW_week_bounds d
  · intro z hz
    obtain ⟨i, hi, rfl⟩ := walkList_mem w _ z hz
    exact mem_uniqueSortedPairs.mpr (hmem i hi)

/-- C5: for every habit and every supplied reference date, the current
streak is at most the longest streak. -/
theorem c5_current_le_longest (habit : Habit) (today : Int) (sys : Int) :
    calculate_current_streak habit (some today) sys ≤
      calculate_streak habit := by
  by_cases hdc : habit.completion_dates = []
  · simp [calculate_current_streak, hdc]
  · have h1 : habit.completion_dates.isEmpty = false := by
      cases hq : habit.completion_dates
      · exact absurd hq hdc
      · rfl
    have hlne :
        uniqueSortedDays (habit.completion_dates.map Timestamp.date) ≠ [] := by
      apply uniqueSortedDays_ne_nil
      intro hmap
      exact hdc (List.map_eq_nil_iff.mp hmap)
    have h2 : (uniqueSortedDays
        (habit.completion_dates.map Timestamp.date)).isEmpty = false := by
      cases hq : uniqueSortedDays (habit.completion_dates.map Timestamp.date)
      · exact absurd hq hlne
      · rfl
    by_cases hw : strLower habit.periodicity = "weekly"
    · have hcur : calculate_current_streak habit (some today) sys =
          current_weekly_streak
            (uniqueSortedDays (habit.completion_dates.map Timestamp.date))
            today := by
        simp [calculate_current_streak, h1, hw]
      have hlong : calculate_streak habit =
          longest_weekly_streak
            (uniqueSortedDays (habit.completion_dates.map Timestamp.date)) := by
        simp [calculate_streak, h1, hw]
      rw [hcur, hlong]
      have hbody : longest_weekly_streak
          (uniqueSortedDays (habit.completion_dates.map Timestamp.date)) =
          longestRun weekConsec (uniqueSortedPairs
            ((uniqueSortedDays
              (habit.completion_dates.map Timestamp.date)).map
                isocalendarYW)) := by
        simp [longest_weekly_streak, h2]
      rw [hbody]
      simp only [current_weekly_streak, h2, Bool.false_eq_true, if_false]
      split
      · exact countBackW_le_longest _ _ ⟨today, rfl⟩
      · split
        · exact countBackW_le_longest _ _
            ⟨fromIsoMonday (isocalendarYW today).1 (isocalendarYW today).2 - 7,
              rfl⟩
        · exact Nat.zero_le _
    · have hcur : calculate_current_streak habit (some today) sys =
          current_daily_streak
            (uniqueSortedDays (habit.completion_dates.map Timestamp.date))
            today := by
        simp [calculate_current_streak, h1, hw]
      have hlong : calculate_streak habit =
          longest_daily_streak
            (uniqueSortedDays (habit.completion_dates.map Timestamp.date)) := by
        simp [calculate_streak, h1, hw]
      rw [hcur, hlong]
      have hbody : longest_daily_streak
          (uniqueSortedDays (habit.completion_dates.map Timestamp.date)) =
          longestRun dayConsec
            (uniqueSortedDays (habit.completion_dates.map Timestamp.date)) := by
        simp [longest_daily_streak, h2]
      rw [hbody]
      simp only [current_daily_streak, h2, Bool.false_eq_true, if_false]
      split
      · exact countBack_le_longest _ (chain'_uniqueSortedDays _) today
      · split
        · exact countBack_le_longest _ (chain'_uniqueSortedDays _) (today - 1)
        · exact Nat.zero_le _

/-! ### Claim C6: duplicate completions in an existing period are inert -/

lemma countBackFuel_stable {α : Type} [DecidableEq α]
    (c : List α) (step : α → α) :
    ∀ (f f' : Nat) (cur : α), countBackFuel c step f cur < f → f ≤ f' →
      countBackFuel c step f' cur = countBackFuel c step f cur
  | 0, _, _, hlt, _ => absurd hlt (by omega)
  | f + 1, f', cur, hlt, hle => by
    obtain ⟨f'', rfl⟩ : ∃ g, f' = g + 1 := ⟨f' - 1, by omega⟩
    simp only [countBackFuel]
    by_cases hm : cur ∈ c
    · rw [if_pos hm, if_pos hm]
      simp only [countBackFuel, if_pos hm] at hlt
      rw [countBackFuel_stable c step f f'' (step cur) (by omega) (by omega)]
    · rw [if_neg hm, if_neg hm]

/-- The weekly backward walk depends only on the set of ISO keys, not on
the key list's length or multiplicities. -/
lemma countBackW_congr (dA dB : List Int) (w : Int × Int)
    (hw : ∃ o, isocalendarYW o = w)
    (hmm : ∀ x, x ∈ dA.map isocalendarYW ↔ x ∈ dB.map isocalendarYW) :
    countBackFuel (dA.map isocalendarYW) prevIsoWeek
        ((dA.map isocalendarYW).length + 1) w =
      countBackFuel (dB.map isocalendarYW) prevIsoWeek
        ((dB.map isocalendarYW).length + 1) w := by
  have hltA := weekly_countBack_lt (dA.map isocalendarYW) w hw
  have hltB := weekly_countBack_lt (dB.map isocalendarYW) w hw
  have hF := countBackFuel_stable (dA.map isocalendarYW) prevIsoWeek
    ((dA.map isocalendarYW).length + 1)
    (max ((dA.map isocalendarYW).length + 1) ((dB.map isocalendarYW).length + 1))
    w hltA (le_max_left _ _)
  have hG := countBackFuel_stable (dB.map isocalendarYW) prevIsoWeek
    ((dB.map isocalendarYW).length + 1)
    (max ((dA.map isocalendarYW).length + 1) ((dB.map isocalendarYW).length + 1))
    w hltB (le_max_right _ _)
  have hC := @countBackFuel_congr (Int × Int) _ (dA.map isocalendarYW)
    (dB.map isocalendarYW) prevIsoWeek hmm
    (max ((dA.map isocalendarYW).length + 1) ((dB.map isocalendarYW).length + 1))
    w
  omega

lemma current_weekly_congr (dA dB : List Int) (today : Int)
    (hmm : ∀ x, x ∈ dA.map isocalendarYW ↔ x ∈ dB.map isocalendarYW)
    (hA : dA.isEmpty = false) (hB : dB.isEmpty = false) :
    current_weekly_streak dA today = current_weekly_streak dB today := by
  simp only [current_weekly_streak, hA, hB, Bool.false_eq_true, if_false]
  by_cases hthis : isocalendarYW today ∈ dB.map isocalendarYW
  · rw [if_pos hthis, if_pos ((hmm _).mpr hthis)]
    exact countBackW_congr dA dB _ ⟨today, rfl⟩ hmm
  · rw [if_neg hthis, if_neg (fun hc => hthis ((hmm _).mp hc))]
    by_cases hlast : prevIsoWeek (isocalendarYW today) ∈ dB.map isocalendarYW
    · rw [if_pos hlast, if_pos ((hmm _).mpr hlast)]
      exact countBackW_congr dA dB _
        ⟨fromIsoMonday (isocalendarYW today).1 (isocalendarYW today).2 - 7,
          rfl⟩ hmm
    · rw [if_neg hlast, if_neg (fun hc => hlast ((hmm _).mp hc))]

/-- C6: appending a completion timestamp that falls on a calendar day
(daily habit) or in an ISO week (weekly habit) already carrying one of the
habit's completions changes neither the longest nor the current streak. -/
theorem c6_duplicate_completion (habit : Habit) (t : Timestamp)
    (today : Option Int) (sys : Int) :
    (strLower habit.periodicity ≠ "weekly" →
      (∃ u ∈ habit.completion_dates, Timestamp.date u = Timestamp.date t) →
      calculate_streak
          { habit with completion_dates := habit.completion_dates ++ [t] } =
        calculate_streak habit ∧
      calculate_current_streak
          { habit with completion_dates := habit.completion_dates ++ [t] }
          today sys = calculate_current_streak habit today sys) ∧
    (strLower habit.periodicity = "weekly" →
      (∃ u ∈ habit.completion_dates,
        isocalendarYW (Timestamp.date u) = isocalendarYW (Timestamp.date t)) →
      calculate_streak
          { habit with completion_dates := habit.completion_dates ++ [t] } =
        calculate_streak habit ∧
      calculate_current_streak
          { habit with completion_dates := habit.completion_dates ++ [t] }
          today sys = calculate_current_streak habit today sys) := by
  constructor
  · intro hw hdup
    obtain ⟨u, hu, hud⟩ := hdup
    have hne : habit.completion_dates ≠ [] := by
      intro hc
      rw [hc] at hu
      exact absurd hu (List.not_mem_nil u)
    have h1 : habit.completion_dates.isEmpty = false := by
      cases hq : habit.completion_dates
      · exact absurd hq hne
      · rfl
    have h1' : (habit.completion_dates ++ [t]).isEmpty = false := by
      cases hq : habit.completion_dates ++ [t]
      · exact absurd hq (by simp)
      · rfl
    have hU : uniqueSortedDays
        (habit.completion_dates.map Timestamp.date ++ [Timestamp.date t]) =
        uniqueSortedDays (habit.completion_dates.map Timestamp.date) := by
      apply uniqueSortedDays_congr
      intro x
      simp only [List.mem_append, List.mem_singleton]
      constructor
      · rintro (hx | rfl)
        · exact hx
        · exact List.mem_map.mpr ⟨u, hu, hud⟩
      · intro hx
        exact Or.inl hx
    constructor
    · simp [calculate_streak, h1, h1', hU, hw]
    · simp [calculate_current_streak, h1, h1', hU, hw]
  · intro hw hdup
    obtain ⟨u, hu, hud⟩ := hdup
    have hne : habit.completion_dates ≠ [] := by
      intro hc
      rw [hc] at hu
      exact absurd hu (List.not_mem_nil u)
    have h1 : habit.completion_dates.isEmpty = false := by
      cases hq : habit.completion_dates
      · exact absurd hq hne
      · rfl
    have h1' : (habit.completion_dates ++ [t]).isEmpty = false := by
      cases hq : habit.completion_dates ++ [t]
      · exact absurd hq (by simp)
      · rfl
    have hlneA : uniqueSortedDays
        (habit.completion_dates.map Timestamp.date ++ [Timestamp.date t]) ≠
          [] := by
      apply uniqueSortedDays_ne_nil
      simp
    have hlneB :
        uniqueSortedDays (habit.completion_dates.map Timestamp.date) ≠ [] := by
      apply uniqueSortedDays_ne_nil
      intro hmap
      exact hne (List.map_eq_nil_iff.mp hmap)
    have h2A : (uniqueSortedDays
        (habit.completion_dates.map Timestamp.date ++
          [Timestamp.date t])).isEmpty = false := by
      cases hq : uniqueSortedDays
        (habit.completion_dates.map Timestamp.date ++ [Timestamp.date t])
      · exact absurd hq hlneA
      · rfl
    have h2B : (uniqueSortedDays
        (habit.completion_dates.map Timestamp.date)).isEmpty = false := by
      cases hq : uniqueSortedDays (habit.completion_dates.map Timestamp.date)
      · exact absurd hq hlneB
      · rfl
    have hkeys : ∀ x : Int × Int,
        x ∈ (uniqueSortedDays
          (habit.completion_dates.map Timestamp.date ++
            [Timestamp.date t])).map isocalendarYW ↔
        x ∈ (uniqueSortedDays
          (habit.completion_dates.map Timestamp.date)).map isocalendarYW := by
      intro x
      constructor
      · intro hx
        obtain ⟨z, hz, rfl⟩ := List.mem_map.mp hx
        have hz2 := mem_uniqueSortedDays.mp hz
        simp only [List.mem_append, List.mem_singleton] at hz2
        rcases hz2 with hz3 | rfl
        · exact List.mem_map.mpr ⟨z, mem_uniqueSortedDays.mpr hz3, rfl⟩
        · exact List.mem_map.mpr
            ⟨Timestamp.date u,
              mem_uniqueSortedDays.mpr (List.mem_map.mpr ⟨u, hu, rfl⟩),
              hud⟩
      · intro hx
        obtain ⟨z, hz, rfl⟩ := List.mem_map.mp hx
        refine List.mem_map.mpr ⟨z, mem_uniqueSortedDays.mpr ?_, rfl⟩
        have hz2 := mem_uniqueSortedDays.mp hz
        simp only [List.mem_append, List.mem_singleton]
        exact Or.inl hz2
    have hK : uniqueSortedPairs
        ((uniqueSortedDays
          (habit.completion_dates.map Timestamp.date ++
            [Timestamp.date t])).map isocalendarYW) =
        uniqueSortedPairs ((uniqueSortedDays
          (habit.completion_dates.map Timestamp.date)).map isocalendarYW) :=
      uniqueSortedPairs_congr hkeys
    constructor
    · have eA : calculate_streak
          { habit with completion_dates := habit.completion_dates ++ [t] } =
          longestRun weekConsec (uniqueSortedPairs
            ((uniqueSortedDays
              (habit.completion_dates.map Timestamp.date ++
                [Timestamp.date t])).map isocalendarYW)) := by
        simp [calculate_streak, h1', hw, longest_weekly_streak, h2A]
      have eB : calculate_streak habit =
          longestRun weekConsec (uniqueSortedPairs
            ((uniqueSortedDays
              (habit.completion_dates.map Timestamp.date)).map
                isocalendarYW)) := by
        simp [calculate_streak, h1, hw, longest_weekly_streak, h2B]
      rw [eA, eB, hK]
    · have eA : calculate_current_streak
          { habit with completion_dates := habit.completion_dates ++ [t] }
          today sys =
          current_weekly_streak (uniqueSortedDays
            (habit.completion_dates.map Timestamp.date ++ [Timestamp.date t]))
            (today.getD sys) := by
        simp [calculate_current_streak, h1', hw]
      have eB : calculate_current_streak habit today sys =
          current_weekly_streak (uniqueSortedDays
            (habit.completion_dates.map Timestamp.date)) (today.getD sys) := by
        simp [calculate_current_streak, h1, hw]
      rw [eA, eB]
      exact current_weekly_congr _ _ _ hkeys h2A h2B

theorem c6_witness :
    (calculate_streak ⟨8, "d", "daily", ⟨1, 0⟩, none,
          [⟨8, 10⟩, ⟨9, 10⟩, ⟨9, 99⟩]⟩ =
        calculate_streak ⟨8, "d", "daily", ⟨1, 0⟩, none,
          [⟨8, 10⟩, ⟨9, 10⟩]⟩ ∧
      calculate_current_streak ⟨8, "d", "daily", ⟨1, 0⟩, none,
          [⟨8, 10⟩, ⟨9, 10⟩, ⟨9, 99⟩]⟩ (some 9) 0 =
        calculate_current_streak ⟨8, "d", "daily", ⟨1, 0⟩, none,
          [⟨8, 10⟩, ⟨9, 10⟩]⟩ (some 9) 0) ∧
    (calculate_streak ⟨9, "w", "weekly", ⟨1, 0⟩, none,
          [⟨737780, 10⟩, ⟨737781, 99⟩]⟩ =
        calculate_streak ⟨9, "w", "weekly", ⟨1, 0⟩, none,
          [⟨737780, 10⟩]⟩ ∧
      calculate_current_streak ⟨9, "w", "weekly", ⟨1, 0⟩, none,
          [⟨737780, 10⟩, ⟨737781, 99⟩]⟩ (some 737783) 0 =
        calculate_current_streak ⟨9, "w", "weekly", ⟨1, 0⟩, none,
          [⟨737780, 10⟩]⟩ (some 737783) 0) :=
  ⟨(c6_duplicate_completion ⟨8, "d", "daily", ⟨1, 0⟩, none,
        [⟨8, 10⟩, ⟨9, 10⟩]⟩ ⟨9, 99⟩ (some 9) 0).1 (by decide)
      ⟨⟨9, 10⟩, by simp, rfl⟩,
    (c6_duplicate_completion ⟨9, "w", "weekly", ⟨1, 0⟩, none,
        [⟨737780, 10⟩]⟩ ⟨737781, 99⟩ (some 737783) 0).2 (by decide)
      ⟨⟨737780, 10⟩, by simp, by decide⟩⟩

end HabitTracker
